import Mathlib

/-!
# Verification of `pkg/handler/handler.go`

A shallow embedding of the delta engine (`squashPresubmits`,
`squashPresubmitsStatic`, `squashConfigs`), of the path filter
(`filterByPattern`), of the event guard (`shouldPerformOnEvent`) and of the job
materializer (`addRepoRef`, `generatePresubmits`, `generateProwJobs`), followed
by the theorems that settle the claims of the specification against that code.

Modelling conventions.

* A Go slice is a `List`; the nil slice and the empty slice are both `[]`.
* A Go `map[string]V` is an `AList`: a finite map with pairwise distinct keys.
  The order of its entries stands for the order in which one `range` statement
  visits the map.  Go leaves that order unspecified, and every theorem below
  quantifies over all maps, hence over all visiting orders.  A nil map reads and
  ranges like the empty map.
* A Go pointer is an `Option`; dereferencing `none` is the run-time panic, which
  a function that can hit it reports by returning `none`.
* `reflect.DeepEqual` on two `Spec` pointers is equality of `Option σ`: two nil
  pointers are equal, a nil and a non-nil pointer differ, two non-nil pointers
  are compared by their pointees.
* The types of the prow packages are not part of the repository.  The fields the
  handler reads are modelled by name; everything else a value of these types
  carries is a type parameter (`σ` for the pod specification a `Spec` pointer
  refers to, `τ` for the remaining fields of a presubmit, `ρ` for those of a
  configuration document, `π` for those of a pull request, `κ` for those of a
  job-run record).
* Library functions are parameters (`filepath.Match`, `pjutil.NewPresubmit`),
  except `strings.Split` on the slash, which is modelled by `splitOnSlash`.
-/

namespace Handler

/-- Go `map[string]V`, see the modelling conventions. -/
abbrev GoMap (V : Type) : Type := AList (fun _ : String => V)

/-- The part of `config.Presubmit` the handler and its tests touch: `Name` and
`MaxConcurrency` are fields of the embedded `JobBase`, `Spec` is the pointer
field that `squashPresubmits` compares, `Other` holds every remaining field. -/
structure Presubmit (σ τ : Type) where
  Name : String
  MaxConcurrency : Int
  Spec : Option σ
  Other : τ
deriving DecidableEq

/-- The part of `config.Config` the handler touches: the `PresubmitsStatic`
mapping of the embedded `JobConfig`; `Rest` holds every remaining field. -/
structure Config (σ τ ρ : Type) where
  PresubmitsStatic : GoMap (List (Presubmit σ τ))
  Rest : ρ

/-- Zero value of a configuration document, as allocated by `new(config.Config)`:
a nil `PresubmitsStatic` and the zero value of every other field (`default`). -/
instance instInhabitedConfig {σ τ ρ : Type} [Inhabited ρ] : Inhabited (Config σ τ ρ) :=
  ⟨⟨∅, default⟩⟩

/-- Go `type configPathMap map[string]*config.Config`. -/
abbrev configPathMap (σ τ ρ : Type) : Type := GoMap (Option (Config σ τ ρ))

/-- One iteration of the inner loop of `squashPresubmits` (handler.go 189-198).
The state is the pair `(squashedPresubmits, presubmitIsNew)`. -/
def scanBase {σ τ : Type} [DecidableEq σ] (headPresubmit : Presubmit σ τ)
    (st : List (Presubmit σ τ) × Bool) (basePresubmit : Presubmit σ τ) :
    List (Presubmit σ τ) × Bool :=
  if basePresubmit.Name ≠ headPresubmit.Name then st
  else if headPresubmit.Spec = basePresubmit.Spec then (st.1, false)
  else (st.1 ++ [headPresubmit], false)

/-- One iteration of the outer loop of `squashPresubmits` (handler.go 187-202). -/
def scanHead {σ τ : Type} [DecidableEq σ] (originalPresubmits : List (Presubmit σ τ))
    (squashedPresubmits : List (Presubmit σ τ)) (headPresubmit : Presubmit σ τ) :
    List (Presubmit σ τ) :=
  let st := originalPresubmits.foldl (scanBase headPresubmit) (squashedPresubmits, true)
  if st.2 then st.1 ++ [headPresubmit] else st.1

/-- Go `squashPresubmits` (handler.go 184-204). -/
def squashPresubmits {σ τ : Type} [DecidableEq σ]
    (originalPresubmits modifiedPresubmits : List (Presubmit σ τ)) : List (Presubmit σ τ) :=
  modifiedPresubmits.foldl (scanHead originalPresubmits) []

/-- One iteration of the loop of `squashPresubmitsStatic` (handler.go 171-179);
`e` is the visited `(repo, headPresubmits)` entry. -/
def squashRepo {σ τ : Type} [DecidableEq σ]
    (originalPresubmits : GoMap (List (Presubmit σ τ)))
    (squashedPresubmitConfigs : GoMap (List (Presubmit σ τ)))
    (e : Sigma (fun _ : String => List (Presubmit σ τ))) : GoMap (List (Presubmit σ τ)) :=
  match originalPresubmits.lookup e.1 with
  | none => squashedPresubmitConfigs.insert e.1 e.2
  | some basePresubmits =>
    squashedPresubmitConfigs.insert e.1 (squashPresubmits basePresubmits e.2)

/-- Go `squashPresubmitsStatic` (handler.go 168-181). -/
def squashPresubmitsStatic {σ τ : Type} [DecidableEq σ]
    (originalPresubmits modifiedPresubmits : GoMap (List (Presubmit σ τ))) :
    GoMap (List (Presubmit σ τ)) :=
  modifiedPresubmits.entries.foldl (squashRepo originalPresubmits) ∅

/-- One iteration of the loop of `squashConfigs` (handler.go 152-163); `e` is the
visited `(path, headConfig)` entry.  Reading `PresubmitsStatic` through a nil
`baseConfig` or `headConfig` panics (`none`). -/
def squashPath {σ τ ρ : Type} [DecidableEq σ] [Inhabited ρ]
    (originalConfigs : configPathMap σ τ ρ) (configs : List (Option (Config σ τ ρ)))
    (e : Sigma (fun _ : String => Option (Config σ τ ρ))) :
    Option (List (Option (Config σ τ ρ))) :=
  match originalConfigs.lookup e.1 with
  | none => some (configs ++ [e.2])
  | some none => none
  | some (some baseConfig) =>
    match e.2 with
    | none => none
    | some headConfig =>
      let squashedConfig : Config σ τ ρ :=
        { (default : Config σ τ ρ) with
          PresubmitsStatic :=
            squashPresubmitsStatic baseConfig.PresubmitsStatic headConfig.PresubmitsStatic }
      some (configs ++ [some squashedConfig])

/-- Go `squashConfigs` (handler.go 150-165); `none` is a nil-pointer panic. -/
def squashConfigs {σ τ ρ : Type} [DecidableEq σ] [Inhabited ρ]
    (originalConfigs modifiedConfigs : configPathMap σ τ ρ) :
    Option (List (Option (Config σ τ ρ))) :=
  modifiedConfigs.entries.foldlM (squashPath originalConfigs) []

/-- One iteration of the loop of `filterByPattern` (handler.go 109-118).  `Match`
stands for `filepath.Match` of the Go standard library: it returns whether the
name matches the pattern, or an error (the only one is `ErrBadPattern`). -/
def filterStep {ε : Type} (Match : String → String → Except ε Bool) (pattern : String)
    (out : List String) (s : String) : Except ε (List String) :=
  match Match pattern s with
  | Except.error err => Except.error err
  | Except.ok m => if m then Except.ok (out ++ [s]) else Except.ok out

/-- Go `filterByPattern` (handler.go 107-120). -/
def filterByPattern {ε : Type} (Match : String → String → Except ε Bool)
    (input : List String) (pattern : String) : Except ε (List String) :=
  input.foldlM (filterStep Match pattern) []

/-- Closed form of one pass of the outer loop of `squashPresubmits`, used to state
what the loops compute: the copies of `headPresubmit` that the pass appends, one
for each base job of the same name whose `Spec` differs, and one more when no
base job carries the name. -/
def emitFor {σ τ : Type} [DecidableEq σ] (originalPresubmits : List (Presubmit σ τ))
    (headPresubmit : Presubmit σ τ) : List (Presubmit σ τ) :=
  (originalPresubmits.filter
      (fun b => decide (b.Name = headPresubmit.Name ∧ headPresubmit.Spec ≠ b.Spec))).map
    (fun _ => headPresubmit)
  ++ (if originalPresubmits.all (fun b => decide (b.Name ≠ headPresubmit.Name))
      then [headPresubmit] else [])

/-- Closed form of the list that `squashPresubmitsStatic` stores under `repo` when
the head mapping holds `headPresubmits` there: the head list itself when the
base mapping has no such key, its squash against the base list otherwise. -/
def squashedFor {σ τ : Type} [DecidableEq σ]
    (originalPresubmits : GoMap (List (Presubmit σ τ))) (repo : String)
    (headPresubmits : List (Presubmit σ τ)) : List (Presubmit σ τ) :=
  match originalPresubmits.lookup repo with
  | none => headPresubmits
  | some basePresubmits => squashPresubmits basePresubmits headPresubmits

/-- Job names are unique within the list (data-model invariant of a job list). -/
abbrev UniqueNames {σ τ : Type} (l : List (Presubmit σ τ)) : Prop :=
  (l.map Presubmit.Name).Nodup

/-- A snapshot proper: every path of the mapping holds a configuration document,
none holds a nil pointer.  `loadConfigs` stores only documents it has loaded. -/
def IsSnapshot {σ τ ρ : Type} (m : configPathMap σ τ ρ) : Prop :=
  ∀ e ∈ m.entries, e.2.isSome = true

instance instDecidableIsSnapshot {σ τ ρ : Type} (m : configPathMap σ τ ρ) :
    Decidable (IsSnapshot m) :=
  inferInstanceAs (Decidable (∀ e ∈ m.entries, e.2.isSome = true))

/-- Closed form of the document that one pass of the loop of `squashConfigs`
appends for the visited entry `e` when no nil pointer is read: the head document
itself when the path is absent from the base snapshot, otherwise a fresh
document that carries only the squashed `PresubmitsStatic`. -/
def docFor {σ τ ρ : Type} [DecidableEq σ] [Inhabited ρ]
    (originalConfigs : configPathMap σ τ ρ)
    (e : Sigma (fun _ : String => Option (Config σ τ ρ))) : Option (Config σ τ ρ) :=
  match originalConfigs.lookup e.1, e.2 with
  | some (some baseConfig), some headConfig =>
    some { (default : Config σ τ ρ) with
      PresubmitsStatic :=
        squashPresubmitsStatic baseConfig.PresubmitsStatic headConfig.PresubmitsStatic }
  | _, _ => e.2

/-- Job `dont-touch` of the tests (handler_test.go): every field but the name is
the zero value, so `Spec` is the nil pointer.  In the worked examples natural
numbers stand for pod specifications and `Unit` for the fields not modelled. -/
def testDontTouch : Presubmit Nat Unit := ⟨"dont-touch", 0, none, ()⟩

/-- Job `modify-something` of the tests with `MaxConcurrency: 1` (base side). -/
def testModifyBase : Presubmit Nat Unit := ⟨"modify-something", 1, none, ()⟩

/-- Job `modify-something` of the tests with `MaxConcurrency: 2` (head side). -/
def testModifyHead : Presubmit Nat Unit := ⟨"modify-something", 2, none, ()⟩

/-- Job `new-job` of `TestSquashPresubmits`. -/
def testNewJob : Presubmit Nat Unit := ⟨"new-job", 0, none, ()⟩

/-- Job `new-presubmit` of `TestSquashPresubmitConfigs`. -/
def testNewPresubmit : Presubmit Nat Unit := ⟨"new-presubmit", 0, none, ()⟩

/-- Base list of `TestSquashPresubmits` (handler_test.go 176-188). -/
def testOriginalPresubmits : List (Presubmit Nat Unit) := [testDontTouch, testModifyBase]

/-- Head list of `TestSquashPresubmits` (handler_test.go 189-207). -/
def testNewPresubmits : List (Presubmit Nat Unit) :=
  [testDontTouch, testModifyHead, testNewJob]

/-- Result that `TestSquashPresubmits` asserts (handler_test.go 208-221). -/
def testExpectedPresubmits : List (Presubmit Nat Unit) := [testModifyHead, testNewJob]

/-- Base mapping of `TestSquashPresubmitConfigs` (handler_test.go 102-123). -/
def testOriginalConfigs : GoMap (List (Presubmit Nat Unit)) :=
  AList.insert "foo/bar" [testDontTouch, testModifyBase]
    (AList.insert "foo/baz" [testDontTouch] ∅)

/-- Head mapping of `TestSquashPresubmitConfigs` (handler_test.go 124-151). -/
def testModifiedConfigs : GoMap (List (Presubmit Nat Unit)) :=
  AList.insert "foo/bar" [testDontTouch, testModifyHead]
    (AList.insert "foo/baz" [testDontTouch, testNewPresubmit] ∅)

/-- A job `build` whose `Spec` points to pod specification `1`. -/
def exBuildBase : Presubmit Nat Unit := ⟨"build", 0, some 1, ()⟩

/-- The job `build` with its `Spec` changed to pod specification `2`. -/
def exBuildHead : Presubmit Nat Unit := ⟨"build", 0, some 2, ()⟩

/-- Whether `Match` reports, without error, that `s` matches `pattern`. -/
def isMatch {ε : Type} (Match : String → String → Except ε Bool) (pattern : String)
    (s : String) : Bool :=
  match Match pattern s with
  | Except.ok true => true
  | _ => false

/-- The error of `filepath.Match`. -/
inductive PatternError where
  | ErrBadPattern
deriving DecidableEq

/-- A sample matcher for the worked examples: the pattern `[` is malformed, and any
other pattern is taken literally. -/
def sampleMatch (pattern s : String) : Except PatternError Bool :=
  if pattern = "[" then Except.error PatternError.ErrBadPattern
  else Except.ok (decide (pattern = s))

/-- A base snapshot laid out as in `TestSquashConfigs`: one document at `foo/path`,
holding the base mapping of `TestSquashPresubmitConfigs`. -/
def testBaseSnapshot : configPathMap Nat Unit Unit :=
  AList.insert "foo/path" (some ⟨testOriginalConfigs, ()⟩) ∅

/-- A head snapshot laid out as in `TestSquashConfigs`: a document at `foo/path`
holding the head mapping of `TestSquashPresubmitConfigs`, and the same document
at a second path `new/path` that the base snapshot lacks. -/
def testHeadSnapshot : configPathMap Nat Unit Unit :=
  AList.insert "foo/path" (some ⟨testModifiedConfigs, ()⟩)
    (AList.insert "new/path" (some ⟨testModifiedConfigs, ()⟩) ∅)

/-- Specification payload of a job definition in the words of the specification
(data model): what the definition holds besides its name, the scheduling metadata
such as the concurrency limit included. -/
def payload {σ τ : Type} (p : Presubmit σ τ) : Int × Option σ × τ :=
  (p.MaxConcurrency, p.Spec, p.Other)

/-- Squash of two job lists as the specification words it: the concatenation, in
head order, over each head job `h` of one copy of `h` when no base job has the
name of `h`, and otherwise of one copy of `h` for each base job that has the name
of `h` and a specification payload different from that of `h`. -/
def squashPresubmitsSpec {σ τ : Type} [DecidableEq σ] [DecidableEq τ]
    (originalPresubmits modifiedPresubmits : List (Presubmit σ τ)) : List (Presubmit σ τ) :=
  modifiedPresubmits.flatMap (fun h =>
    if originalPresubmits.all (fun b => decide (b.Name ≠ h.Name)) then [h]
    else List.replicate
      (originalPresubmits.countP (fun b => decide (b.Name = h.Name ∧ payload b ≠ payload h))) h)

/-- A sample matcher that meets a malformed part of a pattern only when the name
leads it there: for the pattern `b*[` a name that starts with `b` raises the
error and any other name is a plain mismatch; every other pattern is taken
literally. -/
def lazyMatch (pattern s : String) : Except PatternError Bool :=
  if pattern = "b*[" then
    if s.data.head? = some 'b' then Except.error PatternError.ErrBadPattern
    else Except.ok false
  else Except.ok (decide (pattern = s))

/-- The job `build` with `Spec` unchanged and `MaxConcurrency` raised to `5`. -/
def exBuildBaseBusy : Presubmit Nat Unit := ⟨"build", 5, some 1, ()⟩

/-- Go `strings.Split(s, "/")` on the characters of `s`: the pieces between the
slashes, in order; a string without a slash is its own single piece. -/
def splitSlash : List Char → List (List Char)
  | [] => [[]]
  | c :: cs =>
    if c = '/' then [] :: splitSlash cs
    else
      match splitSlash cs with
      | [] => [[c]]
      | p :: ps => (c :: p) :: ps

/-- Go `strings.Split(repo, "/")` of the standard library, as `addRepoRef` calls it
(handler.go 272). -/
def splitOnSlash (repo : String) : List String :=
  (splitSlash repo.data).map String.mk

/-- The string carries the `org/name` separator. -/
def IsRepoIdentifier (repo : String) : Prop := '/' ∈ repo.data

instance instDecidableIsRepoIdentifier (repo : String) : Decidable (IsRepoIdentifier repo) :=
  inferInstanceAs (Decidable ('/' ∈ repo.data))

/-- The fields of `prowapi.Refs` that `addRepoRef` reads or sets; the composite
literal of handler.go 274-281 leaves every other field at its zero value. -/
structure Refs where
  Org : String
  Repo : String
  RepoLink : String
  BaseRef : String
  WorkDir : Bool
  CloneDepth : Int
deriving DecidableEq

/-- The part of `prowapi.ProwJob` the handler touches: the record's `Name`, the
list `Spec.ExtraRefs`, and `Other` for every remaining field. -/
structure ProwJob (κ : Type) where
  Name : String
  ExtraRefs : List Refs
  Other : κ

/-- The part of `github.PullRequest` the handler reads: `Number`, `Base.SHA`,
`Head.SHA`, and `Other` for every remaining field. -/
structure PullRequest (π : Type) where
  Number : Int
  BaseSHA : String
  HeadSHA : String
  Other : π

/-- The part of `github.PullRequestEvent` the handler reads.  Every function is
given the event that `HandlePullRequestEvent` received and read first thing, so
the pointer is modelled by its pointee. -/
structure PullRequestEvent (π : Type) where
  Action : String
  PullRequest : PullRequest π
  GUID : String

/-- Go `shouldPerformOnEvent` (handler.go 123-136). -/
def shouldPerformOnEvent {π : Type} (event : PullRequestEvent π) : Bool :=
  match event.Action with
  | "opened" => true
  | "edited" => true
  | "synchronize" => true
  | _ => false

/-- Go `HandlePullRequestEvent` (handler.go 26-93), its control flow at the guard
of lines 31-34.  `nothingToDo` stands for logging and returning; `pipeline` stands
for everything after the guard (lines 36-92: git client, clone, checkout, diff,
loads, squash, job generation, emit). -/
def HandlePullRequestEvent {π α : Type} (event : PullRequestEvent π) (nothingToDo : α)
    (pipeline : PullRequestEvent π → α) : α :=
  if !shouldPerformOnEvent event then nothingToDo else pipeline event

/-- The loop of `addRepoRef` (handler.go 264-271): the value of `shouldSetrepo`
after scanning the existing references, stopping at the first one with `WorkDir`
set. -/
def scanWorkDir : List Refs → Bool
  | [] => true
  | ref :: rest => if ref.WorkDir then false else scanWorkDir rest

/-- Go `addRepoRef` (handler.go 262-283); the result is the record after the
update through the pointer, and `none` is the index-out-of-range panic of
`repoSplit[1]` when `repo` has no slash. -/
def addRepoRef {κ : Type} (prowJob : ProwJob κ) (repo : String) : Option (ProwJob κ) :=
  let shouldSetrepo := scanWorkDir prowJob.ExtraRefs
  match splitOnSlash repo with
  | org :: name :: _ =>
    some { prowJob with
      ExtraRefs := prowJob.ExtraRefs ++
        [⟨org, name, "https://github.com/" ++ repo, "refs/heads/master", shouldSetrepo, 50⟩] }
  | _ => none

/-- One iteration of the inner loop of `generatePresubmits` (handler.go 249-255).
`NewPresubmit` stands for `pjutil.NewPresubmit` of the prow library. -/
def presubmitStep {σ τ π κ : Type}
    (NewPresubmit : PullRequest π → String → Presubmit σ τ → String → ProwJob κ)
    (pre : PullRequestEvent π) (repo : String) (jobs : List (ProwJob κ))
    (presubmit : Presubmit σ τ) : Option (List (ProwJob κ)) :=
  match addRepoRef (NewPresubmit pre.PullRequest pre.PullRequest.BaseSHA presubmit pre.GUID)
      repo with
  | none => none
  | some pj => some (jobs ++ [pj])

/-- One iteration of the outer loop of `generatePresubmits` (handler.go 248-256);
`e` is the visited `(repo, presubmits)` entry. -/
def repoStep {σ τ π κ : Type}
    (NewPresubmit : PullRequest π → String → Presubmit σ τ → String → ProwJob κ)
    (pre : PullRequestEvent π) (jobs : List (ProwJob κ))
    (e : Sigma (fun _ : String => List (Presubmit σ τ))) : Option (List (ProwJob κ)) :=
  e.2.foldlM (presubmitStep NewPresubmit pre e.1) jobs

/-- Go `generatePresubmits` (handler.go 245-259); `none` is a panic (a nil `conf`,
or a key without a slash that owns a job). -/
def generatePresubmits {σ τ ρ π κ : Type}
    (NewPresubmit : PullRequest π → String → Presubmit σ τ → String → ProwJob κ)
    (conf : Option (Config σ τ ρ)) (pre : PullRequestEvent π) : Option (List (ProwJob κ)) :=
  match conf with
  | none => none
  | some c => c.PresubmitsStatic.entries.foldlM (repoStep NewPresubmit pre) []

/-- One iteration of the loop of `generateProwJobs` (handler.go 238-240). -/
def confStep {σ τ ρ π κ : Type}
    (NewPresubmit : PullRequest π → String → Presubmit σ τ → String → ProwJob κ)
    (pre : PullRequestEvent π) (jobs : List (ProwJob κ)) (conf : Option (Config σ τ ρ)) :
    Option (List (ProwJob κ)) :=
  match generatePresubmits NewPresubmit conf pre with
  | none => none
  | some js => some (jobs ++ js)

/-- Go `generateProwJobs` (handler.go 233-243). -/
def generateProwJobs {σ τ ρ π κ : Type}
    (NewPresubmit : PullRequest π → String → Presubmit σ τ → String → ProwJob κ)
    (configs : List (Option (Config σ τ ρ))) (pre : PullRequestEvent π) :
    Option (List (ProwJob κ)) :=
  configs.foldlM (confStep NewPresubmit pre) []

/-- Number of references of a list that are marked as the primary checkout. -/
def primaryCount (refs : List Refs) : Nat := refs.countP (fun r => r.WorkDir)

/-- Closed form of the record that one pass of the inner loop of
`generatePresubmits` appends for `presubmit` under the key `repo` when `repo` has
a slash: the record of `NewPresubmit` with one reference appended. -/
def recordFor {σ τ π κ : Type}
    (NewPresubmit : PullRequest π → String → Presubmit σ τ → String → ProwJob κ)
    (pre : PullRequestEvent π) (rp : String × Presubmit σ τ) : ProwJob κ :=
  let pj := NewPresubmit pre.PullRequest pre.PullRequest.BaseSHA rp.2 pre.GUID
  { pj with
    ExtraRefs := pj.ExtraRefs ++
      [⟨(splitOnSlash rp.1).getD 0 "", (splitOnSlash rp.1).getD 1 "",
        "https://github.com/" ++ rp.1, "refs/heads/master", scanWorkDir pj.ExtraRefs, 50⟩] }

/-- The `(RepoIdentifier, JobDefinition)` pairs of a document, in visiting order. -/
def jobPairs {σ τ ρ : Type} (c : Config σ τ ρ) : List (String × Presubmit σ τ) :=
  c.PresubmitsStatic.entries.flatMap (fun e => e.2.map (fun p => (e.1, p)))

/-- The `(RepoIdentifier, JobDefinition)` pairs of a sequence of documents. -/
def allJobPairs {σ τ ρ : Type} (configs : List (Option (Config σ τ ρ))) :
    List (String × Presubmit σ τ) :=
  configs.flatMap (fun oc => match oc with
    | some c => jobPairs c
    | none => [])

/-- Total number of job definitions over all keys of all documents. -/
def totalJobs {σ τ ρ : Type} (configs : List (Option (Config σ τ ρ))) : Nat :=
  (configs.map (fun oc => match oc with
    | some c => (c.PresubmitsStatic.entries.map (fun e => e.2.length)).sum
    | none => 0)).sum

/-- A sample of `pjutil.NewPresubmit` for the worked examples: the record takes its
name and its extra references from the job definition, whose `Other` part is here
the list of extra references of the job configuration. -/
def sampleNewPresubmit (_pr : PullRequest Unit) (_baseSHA : String)
    (job : Presubmit Nat (List Refs)) (_guid : String) : ProwJob Unit :=
  ⟨job.Name, job.Other, ()⟩

/-- A pull-request event with action `opened`. -/
def exEvent : PullRequestEvent Unit := ⟨"opened", ⟨1, "base-sha", "head-sha", ()⟩, "guid"⟩

/-- A pull-request event with action `closed`. -/
def exClosedEvent : PullRequestEvent Unit := ⟨"closed", ⟨1, "base-sha", "head-sha", ()⟩, "guid"⟩

/-- A reference to `org/tools` marked as the primary checkout. -/
def exToolsRef : Refs := ⟨"org", "tools", "", "master", true, 0⟩

/-- A reference to `org/docs` marked as the primary checkout. -/
def exDocsRef : Refs := ⟨"org", "docs", "", "master", true, 0⟩

/-- A job whose configuration lists no extra reference. -/
def exPlainJob : Presubmit Nat (List Refs) := ⟨"plain", 0, none, []⟩

/-- A job whose configuration lists two extra references, both marked as the
primary checkout. -/
def exTwoPrimaryJob : Presubmit Nat (List Refs) := ⟨"two-primary", 0, none, [exToolsRef, exDocsRef]⟩

/-- A document with the key `foo/bar` owning `exPlainJob` and `exTwoPrimaryJob`. -/
def exDocument : Config Nat (List Refs) Unit :=
  ⟨AList.insert "foo/bar" [exPlainJob, exTwoPrimaryJob] ∅, ()⟩

section SquashLemmas

variable {σ τ : Type} [DecidableEq σ]

theorem foldl_scanBase (h : Presubmit σ τ) (base : List (Presubmit σ τ)) :
    ∀ (acc : List (Presubmit σ τ)) (flag : Bool),
      base.foldl (scanBase h) (acc, flag) =
        (acc ++ (base.filter (fun b => decide (b.Name = h.Name ∧ h.Spec ≠ b.Spec))).map
            (fun _ => h),
          flag && base.all (fun b => decide (b.Name ≠ h.Name))) := by
  induction base with
  | nil => intro acc flag; simp
  | cons b t ih =>
    intro acc flag
    rw [List.foldl_cons]
    by_cases hn : b.Name = h.Name
    · by_cases hs : h.Spec = b.Spec
      · have : scanBase h (acc, flag) b = (acc, false) := by simp [scanBase, hn, hs]
        rw [this, ih]; simp [hn, hs]
      · have : scanBase h (acc, flag) b = (acc ++ [h], false) := by simp [scanBase, hn, hs]
        rw [this, ih]; simp [hn, hs]
    · have : scanBase h (acc, flag) b = (acc, flag) := by simp [scanBase, hn]
      rw [this, ih]; simp [hn]

theorem scanHead_eq (base acc : List (Presubmit σ τ)) (h : Presubmit σ τ) :
    scanHead base acc h = acc ++ emitFor base h := by
  unfold scanHead emitFor
  simp only [foldl_scanBase, Bool.true_and]
  split <;> simp

theorem foldl_scanHead (base head : List (Presubmit σ τ)) :
    ∀ acc : List (Presubmit σ τ),
      head.foldl (scanHead base) acc = acc ++ head.flatMap (emitFor base) := by
  induction head with
  | nil => intro acc; simp
  | cons h t ih => intro acc; rw [List.foldl_cons, ih, scanHead_eq]; simp

theorem squashPresubmits_eq (base head : List (Presubmit σ τ)) :
    squashPresubmits base head = head.flatMap (emitFor base) := by
  simp [squashPresubmits, foldl_scanHead]

theorem mem_emitFor (base : List (Presubmit σ τ)) (h x : Presubmit σ τ) :
    x ∈ emitFor base h ↔
      x = h ∧ ((∀ b ∈ base, b.Name ≠ h.Name) ∨ ∃ b ∈ base, b.Name = h.Name ∧ b.Spec ≠ h.Spec) := by
  unfold emitFor
  constructor
  · intro hx
    rcases List.mem_append.1 hx with hx | hx
    · obtain ⟨b, hb, rfl⟩ := List.mem_map.1 hx
      have := List.mem_filter.1 hb
      simp only [decide_eq_true_eq] at this
      exact ⟨rfl, Or.inr ⟨b, this.1, this.2.1, fun e => this.2.2 e.symm⟩⟩
    · split at hx
      · rename_i hall
        simp only [List.mem_singleton] at hx
        refine ⟨hx, Or.inl ?_⟩
        intro b hb
        have := List.all_eq_true.1 hall b hb
        simpa using this
      · simp at hx
  · rintro ⟨rfl, hor⟩
    rcases hor with hall | ⟨b, hb, hn, hs⟩
    · apply List.mem_append_right
      have : base.all (fun b => decide (b.Name ≠ x.Name)) = true := by
        rw [List.all_eq_true]; intro b hb; simpa using hall b hb
      rw [if_pos this]; simp
    · apply List.mem_append_left
      refine List.mem_map.2 ⟨b, List.mem_filter.2 ⟨hb, ?_⟩, rfl⟩
      simp only [decide_eq_true_eq]
      exact ⟨hn, fun e => hs e.symm⟩

theorem mem_squashPresubmits (base head : List (Presubmit σ τ)) (x : Presubmit σ τ) :
    x ∈ squashPresubmits base head ↔
      x ∈ head ∧
        ((∀ b ∈ base, b.Name ≠ x.Name) ∨ ∃ b ∈ base, b.Name = x.Name ∧ b.Spec ≠ x.Spec) := by
  rw [squashPresubmits_eq, List.mem_flatMap]
  constructor
  · rintro ⟨h, hh, hx⟩
    obtain ⟨rfl, hor⟩ := (mem_emitFor base h x).1 hx
    exact ⟨hh, hor⟩
  · rintro ⟨hx, hor⟩
    exact ⟨x, hx, (mem_emitFor base x x).2 ⟨rfl, hor⟩⟩

theorem eq_of_mem_emitFor (base : List (Presubmit σ τ)) (h x : Presubmit σ τ)
    (hx : x ∈ emitFor base h) : x = h :=
  ((mem_emitFor base h x).1 hx).1

end SquashLemmas

section NameLemmas

variable {σ τ : Type}

theorem nodup_of_nodup_names (l : List (Presubmit σ τ))
    (h : (l.map Presubmit.Name).Nodup) : l.Nodup :=
  List.Nodup.of_map _ h

theorem eq_of_nodup_names (l : List (Presubmit σ τ)) (h : (l.map Presubmit.Name).Nodup)
    (a b : Presubmit σ τ) (ha : a ∈ l) (hb : b ∈ l) (hn : a.Name = b.Name) : a = b :=
  List.inj_on_of_nodup_map h ha hb hn

theorem length_filter_unique (l : List (Presubmit σ τ)) (h : (l.map Presubmit.Name).Nodup)
    (p : Presubmit σ τ → Bool) (B : Presubmit σ τ) (hB : B ∈ l) (hpB : p B = true)
    (hp : ∀ b ∈ l, p b = true → b.Name = B.Name) : (l.filter p).length = 1 := by
  have hnd : (l.filter p).Nodup := (nodup_of_nodup_names l h).filter _
  have hall : ∀ x ∈ l.filter p, x = B := by
    intro x hx
    have hx2 := List.mem_filter.1 hx
    exact eq_of_nodup_names l h x B hx2.1 hB (hp x hx2.1 hx2.2)
  have hmem : B ∈ l.filter p := List.mem_filter.2 ⟨hB, hpB⟩
  have hsub : l.filter p = List.replicate (l.filter p).length B :=
    List.eq_replicate_of_mem hall
  cases hlen : (l.filter p).length with
  | zero =>
    rw [List.length_eq_zero] at hlen; rw [hlen] at hmem; simp at hmem
  | succ n =>
    cases n with
    | zero => rfl
    | succ m =>
      rw [hlen] at hsub
      rw [hsub] at hnd
      simp [List.replicate_succ] at hnd

end NameLemmas

section CountLemmas

variable {σ τ : Type} [DecidableEq σ] [DecidableEq τ]

theorem count_emitFor_self (base : List (Presubmit σ τ)) (D : Presubmit σ τ) :
    (emitFor base D).count D = (emitFor base D).length :=
  List.count_eq_length.2 (fun x hx => (eq_of_mem_emitFor base D x hx).symm)

theorem count_emitFor_ne (base : List (Presubmit σ τ)) (h D : Presubmit σ τ) (hne : h ≠ D) :
    (emitFor base h).count D = 0 :=
  List.count_eq_zero.2 (fun hD => hne (eq_of_mem_emitFor base h D hD).symm)

theorem count_flatMap_emitFor (base : List (Presubmit σ τ)) (D : Presubmit σ τ) :
    ∀ head : List (Presubmit σ τ), head.Nodup → D ∈ head →
      (head.flatMap (emitFor base)).count D = (emitFor base D).length := by
  intro head
  induction head with
  | nil => intro _ hD; simp at hD
  | cons a t ih =>
    intro hnd hD
    rw [List.flatMap_cons, List.count_append]
    have hnd2 := List.nodup_cons.1 hnd
    by_cases ha : a = D
    · subst ha
      have h0 : (t.flatMap (emitFor base)).count a = 0 := by
        apply List.count_eq_zero.2
        intro hmem
        obtain ⟨h, hh, hx⟩ := List.mem_flatMap.1 hmem
        have := eq_of_mem_emitFor base h a hx
        subst this
        exact hnd2.1 hh
      rw [h0, count_emitFor_self]; rfl
    · have hDt : D ∈ t := by
        rcases List.mem_cons.1 hD with h | h
        · exact absurd h.symm ha
        · exact h
      rw [count_emitFor_ne base a D ha, ih hnd2.2 hDt]; simp

end CountLemmas

section MapLemmas

variable {σ τ : Type} [DecidableEq σ]

theorem squashRepo_eq (base acc : GoMap (List (Presubmit σ τ)))
    (e : Sigma (fun _ : String => List (Presubmit σ τ))) :
    squashRepo base acc e = acc.insert e.1 (squashedFor base e.1 e.2) := by
  unfold squashRepo squashedFor
  cases base.lookup e.1 <;> rfl

theorem lookup_foldl_squashRepo (base : GoMap (List (Presubmit σ τ))) (r : String) :
    ∀ (l : List (Sigma (fun _ : String => List (Presubmit σ τ)))), l.NodupKeys →
      ∀ acc : GoMap (List (Presubmit σ τ)),
        (l.foldl (squashRepo base) acc).lookup r =
          match l.dlookup r with
          | some hp => some (squashedFor base r hp)
          | none => acc.lookup r := by
  intro l
  induction l with
  | nil => intro _ acc; simp
  | cons e t ih =>
    intro hnd acc
    rw [List.nodupKeys_cons] at hnd
    rw [List.foldl_cons, ih hnd.2, squashRepo_eq]
    obtain ⟨k, v⟩ := e
    by_cases hk : r = k
    · subst hk
      have hnone : t.dlookup r = none := List.dlookup_eq_none.2 hnd.1
      simp [hnone, List.dlookup_cons_eq]
    · have h1 : List.dlookup r (⟨k, v⟩ :: t) = t.dlookup r := List.dlookup_cons_ne _ _ hk
      rw [h1]
      cases t.dlookup r with
      | some hp => rfl
      | none => simp [AList.lookup_insert_ne hk]

theorem lookup_squashPresubmitsStatic (base head : GoMap (List (Presubmit σ τ))) (r : String) :
    (squashPresubmitsStatic base head).lookup r =
      (head.lookup r).map (squashedFor base r) := by
  unfold squashPresubmitsStatic
  rw [lookup_foldl_squashRepo base r head.entries head.nodupKeys ∅]
  show (match head.lookup r with
        | some hp => some (squashedFor base r hp)
        | none => (∅ : GoMap (List (Presubmit σ τ))).lookup r) = _
  cases head.lookup r <;> simp

theorem mem_squashPresubmitsStatic (base head : GoMap (List (Presubmit σ τ))) (r : String) :
    r ∈ squashPresubmitsStatic base head ↔ r ∈ head := by
  rw [← AList.lookup_isSome, ← AList.lookup_isSome, lookup_squashPresubmitsStatic]
  cases head.lookup r <;> simp

theorem squashPresubmits_self (L : List (Presubmit σ τ))
    (hL : (L.map Presubmit.Name).Nodup) : squashPresubmits L L = [] := by
  apply List.eq_nil_iff_forall_not_mem.2
  intro x hx
  obtain ⟨hxL, hor⟩ := (mem_squashPresubmits L L x).1 hx
  rcases hor with hall | ⟨b, hb, hn, hs⟩
  · exact hall x hxL rfl
  · have := eq_of_nodup_names L hL b x hb hxL hn
    subst this
    exact hs rfl

end MapLemmas

theorem lookup_ne_nil_of_isSnapshot {σ τ ρ : Type} (m : configPathMap σ τ ρ) (hm : IsSnapshot m) (p : String) :
    m.lookup p ≠ some none := by
  intro h
  have hmem : (⟨p, none⟩ : Sigma (fun _ : String => Option (Config σ τ ρ))) ∈ m.entries :=
    AList.mem_lookup_iff.1 (by rw [h]; exact rfl)
  have := hm _ hmem
  simp at this

section ConfigLemmas

variable {σ τ ρ : Type} [DecidableEq σ] [Inhabited ρ]

theorem squashPath_eq (base : configPathMap σ τ ρ) (acc : List (Option (Config σ τ ρ)))
    (e : Sigma (fun _ : String => Option (Config σ τ ρ)))
    (hb : base.lookup e.1 ≠ some none) (he : e.2.isSome = true) :
    squashPath base acc e = some (acc ++ [docFor base e]) := by
  obtain ⟨p, d⟩ := e
  cases d with
  | none => simp at he
  | some h =>
    unfold squashPath docFor
    simp only
    cases hl : base.lookup p with
    | none => rfl
    | some b =>
      cases b with
      | none => exact absurd hl hb
      | some b => rfl

theorem foldlM_squashPath (base : configPathMap σ τ ρ) :
    ∀ (l : List (Sigma (fun _ : String => Option (Config σ τ ρ)))),
      (∀ e ∈ l, base.lookup e.1 ≠ some none ∧ e.2.isSome = true) →
      ∀ acc : List (Option (Config σ τ ρ)),
        l.foldlM (squashPath base) acc = some (acc ++ l.map (docFor base)) := by
  intro l
  induction l with
  | nil => intro _ acc; simp
  | cons e t ih =>
    intro h acc
    have he := h e (List.mem_cons_self _ _)
    rw [List.foldlM_cons, squashPath_eq base acc e he.1 he.2]
    simp only [Option.bind_eq_bind, Option.some_bind]
    rw [ih (fun x hx => h x (List.mem_cons_of_mem _ hx))]
    simp

theorem squashConfigs_eq (base head : configPathMap σ τ ρ)
    (hb : IsSnapshot base) (hh : IsSnapshot head) :
    squashConfigs base head = some (head.entries.map (docFor base)) := by
  unfold squashConfigs
  rw [foldlM_squashPath base head.entries
    (fun e he => ⟨lookup_ne_nil_of_isSnapshot base hb e.1, hh e he⟩)]
  simp

theorem foldlM_squashPath_congr (base base2 : configPathMap σ τ ρ) :
    ∀ (l : List (Sigma (fun _ : String => Option (Config σ τ ρ)))),
      (∀ e ∈ l, base2.lookup e.1 = base.lookup e.1) →
      ∀ acc : List (Option (Config σ τ ρ)),
        l.foldlM (squashPath base2) acc = l.foldlM (squashPath base) acc := by
  intro l
  induction l with
  | nil => intro _ acc; rfl
  | cons e t ih =>
    intro h acc
    have he := h e (List.mem_cons_self _ _)
    have hstep : squashPath base2 acc e = squashPath base acc e := by
      unfold squashPath; rw [he]
    rw [List.foldlM_cons, List.foldlM_cons, hstep]
    cases squashPath base acc e with
    | none => rfl
    | some acc2 => exact ih (fun x hx => h x (List.mem_cons_of_mem _ hx)) acc2

end ConfigLemmas

section Claims

variable {σ τ : Type} [DecidableEq σ]

/-- C1 (minimal triggering at the repo-mapping level), evaluated on the mappings of
`TestSquashPresubmitConfigs`: the base lists have unique names, the head job
`modify-something` is in the head list of `foo/bar`, and the base job of `foo/bar`
with its name has a different specification payload (the concurrency limit went
from 1 to 2); yet the list that `squashPresubmitsStatic` stores under `foo/bar` is
empty, so the job is not output, whereas the test asserts that it is. -/
theorem squashPresubmitsStatic_test_drops_modified :
    (∀ e ∈ testOriginalConfigs.entries, UniqueNames e.2) ∧
      testModifiedConfigs.lookup "foo/bar" = some [testDontTouch, testModifyHead] ∧
      testOriginalConfigs.lookup "foo/bar" = some [testDontTouch, testModifyBase] ∧
      testModifyBase.Name = testModifyHead.Name ∧
      payload testModifyBase ≠ payload testModifyHead ∧
      (squashPresubmitsStatic testOriginalConfigs testModifiedConfigs).lookup "foo/bar"
        = some [] := by
  decide

/-- Membership in the output of `squashPresubmitsStatic` as the code decides it,
by the `Spec` field alone. When job names are unique within each base list, a job
`h` occurs in the list stored under `r` if and only if `h` occurs in the head
list of `r` and either `r` is absent from the base mapping, or no base job of `r`
has the name of `h`, or the one base job of `r` with that name has a `Spec`
different from that of `h`. -/
theorem squashPresubmitsStatic_mem_iff (base head : GoMap (List (Presubmit σ τ)))
    (hb : ∀ e ∈ base.entries, UniqueNames e.2) (r : String) (h : Presubmit σ τ) :
    (∃ out, (squashPresubmitsStatic base head).lookup r = some out ∧ h ∈ out) ↔
      ∃ hp, head.lookup r = some hp ∧ h ∈ hp ∧
        (r ∉ base ∨
          ∃ bp, base.lookup r = some bp ∧
            ((∀ b ∈ bp, b.Name ≠ h.Name) ∨
              ∃ b ∈ bp, b.Name = h.Name ∧ (∀ c ∈ bp, c.Name = h.Name → c = b) ∧
                b.Spec ≠ h.Spec)) := by
  rw [lookup_squashPresubmitsStatic]
  cases hh : head.lookup r with
  | none => simp
  | some hp =>
    simp only [Option.map_some', Option.some.injEq, exists_eq_left']
    unfold squashedFor
    cases hl : base.lookup r with
    | none =>
      have hr : r ∉ base := AList.lookup_eq_none.1 hl
      simp [hr]
    | some bp =>
      have hr : r ∈ base := by
        rw [← AList.lookup_isSome, hl]; rfl
      have hu : UniqueNames bp :=
        hb ⟨r, bp⟩ (AList.mem_lookup_iff.1 (by rw [hl]; exact rfl))
      simp only [mem_squashPresubmits, Option.some.injEq, exists_eq_left', hr, not_true_eq_false,
        false_or]
      constructor
      · rintro ⟨hmem, hor⟩
        refine ⟨hmem, ?_⟩
        rcases hor with hall | ⟨b, hbm, hn, hs⟩
        · exact Or.inl hall
        · exact Or.inr ⟨b, hbm, hn,
            fun c hc hcn => eq_of_nodup_names bp hu c b hc hbm (hcn.trans hn.symm), hs⟩
      · rintro ⟨hmem, hor⟩
        refine ⟨hmem, ?_⟩
        rcases hor with hall | ⟨b, hbm, hn, _, hs⟩
        · exact Or.inl hall
        · exact Or.inr ⟨b, hbm, hn, hs⟩

/-- Instance of `squashPresubmitsStatic_mem_iff` on the mappings of
`TestSquashPresubmitConfigs`, for `new-presubmit` under `foo/baz`. -/
theorem squashPresubmitsStatic_mem_iff_witness :
    (∀ e ∈ testOriginalConfigs.entries, UniqueNames e.2) ∧
      ((∃ out, (squashPresubmitsStatic testOriginalConfigs testModifiedConfigs).lookup "foo/baz"
            = some out ∧ testNewPresubmit ∈ out) ↔
        ∃ hp, testModifiedConfigs.lookup "foo/baz" = some hp ∧ testNewPresubmit ∈ hp ∧
          ("foo/baz" ∉ testOriginalConfigs ∨
            ∃ bp, testOriginalConfigs.lookup "foo/baz" = some bp ∧
              ((∀ b ∈ bp, b.Name ≠ testNewPresubmit.Name) ∨
                ∃ b ∈ bp, b.Name = testNewPresubmit.Name ∧
                  (∀ c ∈ bp, c.Name = testNewPresubmit.Name → c = b) ∧
                  b.Spec ≠ testNewPresubmit.Spec))) :=
  ⟨by decide,
    squashPresubmitsStatic_mem_iff testOriginalConfigs testModifiedConfigs (by decide)
      "foo/baz" testNewPresubmit⟩

/-- C2 (modification of the concurrency limit), evaluated on the input of
`TestSquashPresubmits`: `squashPresubmits` returns only `new-job`. The head job
`modify-something`, which differs from its base job in `MaxConcurrency` alone, is
not in the result, and the result differs from the list the test asserts. -/
theorem squashPresubmits_test_drops_modified :
    squashPresubmits testOriginalPresubmits testNewPresubmits = [testNewJob] ∧
      testModifyHead ∉ squashPresubmits testOriginalPresubmits testNewPresubmits ∧
      squashPresubmits testOriginalPresubmits testNewPresubmits ≠ testExpectedPresubmits := by
  decide

/-- C3 (unchanged-job stability). When base job names are unique, a head job `D`
for which some base job has the same name and an equal `Spec` does not occur in
`squashPresubmits base head`. -/
theorem squashPresubmits_unchanged_absent (base head : List (Presubmit σ τ))
    (hb : UniqueNames base) (D : Presubmit σ τ) (_hD : D ∈ head)
    (hex : ∃ b ∈ base, b.Name = D.Name ∧ b.Spec = D.Spec) :
    D ∉ squashPresubmits base head := by
  intro hmem
  obtain ⟨b0, hb0, hn0, hs0⟩ := hex
  obtain ⟨_, hor⟩ := (mem_squashPresubmits base head D).1 hmem
  rcases hor with hall | ⟨b, hbm, hn, hs⟩
  · exact hall b0 hb0 hn0
  · have : b = b0 := eq_of_nodup_names base hb b b0 hbm hb0 (hn.trans hn0.symm)
    subst this
    exact hs hs0

/-- Witness of C3 on the lists of `TestSquashPresubmits`: `dont-touch` is in both
lists with the same `Spec` and is absent from the result. -/
theorem squashPresubmits_unchanged_absent_witness :
    UniqueNames testOriginalPresubmits ∧ testDontTouch ∈ testNewPresubmits ∧
      (∃ b ∈ testOriginalPresubmits, b.Name = testDontTouch.Name ∧ b.Spec = testDontTouch.Spec) ∧
      testDontTouch ∉ squashPresubmits testOriginalPresubmits testNewPresubmits :=
  ⟨by decide, by decide, ⟨testDontTouch, by decide, rfl, rfl⟩,
    squashPresubmits_unchanged_absent testOriginalPresubmits testNewPresubmits (by decide)
      testDontTouch (by decide) ⟨testDontTouch, by decide, rfl, rfl⟩⟩

end Claims

section ClaimsCount

variable {σ τ : Type} [DecidableEq σ] [DecidableEq τ]

/-- C4 (modified-job inclusion), evaluated on the lists of `TestSquashPresubmits`:
job names are unique in both lists, the head job `modify-something` and the base
job `modify-something` share a name and differ in specification payload (the
concurrency limit went from 1 to 2); yet `squashPresubmits` contains the head job
zero times, not exactly once. -/
theorem squashPresubmits_test_modified_count_zero :
    UniqueNames testOriginalPresubmits ∧ UniqueNames testNewPresubmits ∧
      testModifyHead ∈ testNewPresubmits ∧ testModifyBase ∈ testOriginalPresubmits ∧
      testModifyHead.Name = testModifyBase.Name ∧
      payload testModifyHead ≠ payload testModifyBase ∧
      (squashPresubmits testOriginalPresubmits testNewPresubmits).count testModifyHead = 0 := by
  decide

/-- Inclusion of a modified job as the code decides it, by the `Spec` field alone.
When job names are unique in the base list and in the head list, and head job `D`
and base job `B` share a name but differ in `Spec`, then `squashPresubmits base
head` contains `D` exactly once, and it contains `B` only if `B` is also a head
job. -/
theorem squashPresubmits_modified_once (base head : List (Presubmit σ τ))
    (hb : UniqueNames base) (hh : UniqueNames head) (D B : Presubmit σ τ)
    (hD : D ∈ head) (hB : B ∈ base) (hn : D.Name = B.Name) (hs : D.Spec ≠ B.Spec) :
    (squashPresubmits base head).count D = 1 ∧
      (B ∈ squashPresubmits base head → B ∈ head) := by
  refine ⟨?_, fun hmem => ((mem_squashPresubmits base head B).1 hmem).1⟩
  rw [squashPresubmits_eq, count_flatMap_emitFor base D head (nodup_of_nodup_names head hh) hD]
  unfold emitFor
  have hall : base.all (fun b => decide (b.Name ≠ D.Name)) = false := by
    rw [List.all_eq_false]
    exact ⟨B, hB, by simp [hn]⟩
  rw [hall]
  simp only [Bool.false_eq_true, if_false, List.append_nil, List.length_map]
  apply length_filter_unique base hb _ B hB
  · simp [hn, hs]
  · intro b _ hp
    simp only [decide_eq_true_eq] at hp
    exact hp.1.trans hn

/-- Instance of `squashPresubmits_modified_once`: the job `build` with `Spec`
changed from `1` to `2`. -/
theorem squashPresubmits_modified_once_witness :
    UniqueNames [testDontTouch, exBuildBase] ∧ UniqueNames [testDontTouch, exBuildHead] ∧
      exBuildHead ∈ [testDontTouch, exBuildHead] ∧ exBuildBase ∈ [testDontTouch, exBuildBase] ∧
      exBuildHead.Name = exBuildBase.Name ∧ exBuildHead.Spec ≠ exBuildBase.Spec ∧
      ((squashPresubmits [testDontTouch, exBuildBase] [testDontTouch, exBuildHead]).count
            exBuildHead = 1 ∧
        (exBuildBase ∈ squashPresubmits [testDontTouch, exBuildBase] [testDontTouch, exBuildHead]
          → exBuildBase ∈ [testDontTouch, exBuildHead])) :=
  ⟨by decide, by decide, by decide, by decide, rfl, by decide,
    squashPresubmits_modified_once [testDontTouch, exBuildBase] [testDontTouch, exBuildHead]
      (by decide) (by decide) exBuildHead exBuildBase (by decide) (by decide) rfl (by decide)⟩

/-- C5 (new-job inclusion). For every base list and every head list with unique
job names, a head job `D` whose name no base job carries occurs in
`squashPresubmits base head` exactly once. -/
theorem squashPresubmits_new_once (base head : List (Presubmit σ τ))
    (hh : UniqueNames head) (D : Presubmit σ τ) (hD : D ∈ head)
    (hnew : ∀ b ∈ base, b.Name ≠ D.Name) :
    (squashPresubmits base head).count D = 1 := by
  rw [squashPresubmits_eq, count_flatMap_emitFor base D head (nodup_of_nodup_names head hh) hD]
  unfold emitFor
  have hall : base.all (fun b => decide (b.Name ≠ D.Name)) = true := by
    rw [List.all_eq_true]
    intro b hbm
    simpa using hnew b hbm
  have hfil : base.filter (fun b => decide (b.Name = D.Name ∧ D.Spec ≠ b.Spec)) = [] := by
    rw [List.filter_eq_nil_iff]
    intro b hbm
    simp [hnew b hbm]
  rw [hall, hfil]
  simp

/-- Witness of C5 on the lists of `TestSquashPresubmits`: `new-job` occurs once. -/
theorem squashPresubmits_new_once_witness :
    UniqueNames testNewPresubmits ∧ testNewJob ∈ testNewPresubmits ∧
      (∀ b ∈ testOriginalPresubmits, b.Name ≠ testNewJob.Name) ∧
      (squashPresubmits testOriginalPresubmits testNewPresubmits).count testNewJob = 1 :=
  ⟨by decide, by decide, by decide,
    squashPresubmits_new_once testOriginalPresubmits testNewPresubmits (by decide) testNewJob
      (by decide) (by decide)⟩

end ClaimsCount

section ClaimsStatic

variable {σ τ : Type} [DecidableEq σ]

/-- C7 (removed-job silence). The keys of `squashPresubmitsStatic base head` are
exactly the keys of `head`; the list stored under a key `r` holds only jobs of
the head list of `r`; hence a job that is in no head list of `r` is never output
under `r`, whatever the base mapping holds. -/
theorem squashPresubmitsStatic_only_head (base head : GoMap (List (Presubmit σ τ))) :
    (∀ r, r ∈ squashPresubmitsStatic base head ↔ r ∈ head) ∧
      (∀ r out, (squashPresubmitsStatic base head).lookup r = some out →
        ∃ hp, head.lookup r = some hp ∧ ∀ j ∈ out, j ∈ hp) ∧
      (∀ r out j, (squashPresubmitsStatic base head).lookup r = some out → j ∈ out →
        (∀ hp, head.lookup r = some hp → j ∉ hp) → False) := by
  have hsub : ∀ r out, (squashPresubmitsStatic base head).lookup r = some out →
      ∃ hp, head.lookup r = some hp ∧ ∀ j ∈ out, j ∈ hp := by
    intro r out hout
    rw [lookup_squashPresubmitsStatic] at hout
    cases hh : head.lookup r with
    | none => rw [hh] at hout; simp at hout
    | some hp =>
      rw [hh] at hout
      simp only [Option.map_some', Option.some.injEq] at hout
      refine ⟨hp, rfl, ?_⟩
      intro j hj
      rw [← hout] at hj
      unfold squashedFor at hj
      cases hl : base.lookup r with
      | none => rw [hl] at hj; exact hj
      | some bp => rw [hl] at hj; exact ((mem_squashPresubmits bp hp j).1 hj).1
  refine ⟨mem_squashPresubmitsStatic base head, hsub, ?_⟩
  intro r out j hout hj hno
  obtain ⟨hp, hhp, hall⟩ := hsub r out hout
  exact hno hp hhp (hall j hj)

end ClaimsStatic

section FilterLemmas

variable {ε : Type}

theorem foldlM_filterStep (Match : String → String → Except ε Bool) (pattern : String) :
    ∀ (input : List String), (∀ s ∈ input, ∃ m, Match pattern s = Except.ok m) →
      ∀ out : List String,
        input.foldlM (filterStep Match pattern) out =
          Except.ok (out ++ input.filter (isMatch Match pattern)) := by
  intro input
  induction input with
  | nil => intro _ out; simp [pure, Except.pure]
  | cons s t ih =>
    intro hok out
    obtain ⟨m, hm⟩ := hok s (List.mem_cons_self _ _)
    have ht := ih (fun x hx => hok x (List.mem_cons_of_mem _ hx))
    rw [List.foldlM_cons]
    cases m with
    | true =>
      have hstep : filterStep Match pattern out s = Except.ok (out ++ [s]) := by
        simp [filterStep, hm]
      have hmatch : isMatch Match pattern s = true := by simp [isMatch, hm]
      rw [hstep]
      show t.foldlM (filterStep Match pattern) (out ++ [s]) = _
      rw [ht, List.filter_cons_of_pos hmatch]
      simp
    | false =>
      have hstep : filterStep Match pattern out s = Except.ok out := by
        simp [filterStep, hm]
      have hmatch : ¬ isMatch Match pattern s = true := by simp [isMatch, hm]
      rw [hstep]
      show t.foldlM (filterStep Match pattern) out = _
      rw [ht, List.filter_cons_of_neg hmatch]

end FilterLemmas

section ClaimsConfig

variable {σ τ ρ : Type} [DecidableEq σ] [Inhabited ρ]

/-- C6 (new-path emission). For snapshots `base` and `head`, `squashConfigs`
returns a list whose documents correspond one to one, in visiting order, to the
paths of `head`; the document that corresponds to a path absent from `base` is
the head document of that path itself, unmodified; hence that head document is in
the output. -/
theorem squashConfigs_new_path (base head : configPathMap σ τ ρ)
    (hb : IsSnapshot base) (hh : IsSnapshot head) :
    ∃ out, squashConfigs base head = some out ∧
      List.Forall₂ (fun e d => e.1 ∉ base → d = e.2) head.entries out ∧
      ∀ p d, head.lookup p = some d → p ∉ base → d ∈ out := by
  have hnew : ∀ e : Sigma (fun _ : String => Option (Config σ τ ρ)),
      e.1 ∉ base → docFor base e = e.2 := by
    intro e he
    have hl : base.lookup e.1 = none := AList.lookup_eq_none.2 he
    unfold docFor
    rw [hl]
  refine ⟨head.entries.map (docFor base), squashConfigs_eq base head hb hh, ?_, ?_⟩
  · rw [List.forall₂_map_right_iff, List.forall₂_same]
    intro e _ he
    exact hnew e he
  · intro p d hp hnb
    have hmem : (⟨p, d⟩ : Sigma (fun _ : String => Option (Config σ τ ρ))) ∈ head.entries :=
      AList.mem_lookup_iff.1 (by rw [hp]; exact rfl)
    exact List.mem_map.2 ⟨⟨p, d⟩, hmem, hnew ⟨p, d⟩ hnb⟩

/-- Witness of C6 on the snapshots of `TestSquashConfigs`, the head one extended
with a path `new/path` that the base snapshot lacks. -/
theorem squashConfigs_new_path_witness :
    IsSnapshot testBaseSnapshot ∧ IsSnapshot testHeadSnapshot ∧
      ∃ out, squashConfigs testBaseSnapshot testHeadSnapshot = some out ∧
        List.Forall₂ (fun e d => e.1 ∉ testBaseSnapshot → d = e.2) testHeadSnapshot.entries out ∧
        ∀ p d, testHeadSnapshot.lookup p = some d → p ∉ testBaseSnapshot → d ∈ out :=
  ⟨by decide, by decide,
    squashConfigs_new_path testBaseSnapshot testHeadSnapshot (by decide) (by decide)⟩

/-- C8 (paths present only in base contribute nothing). For snapshots `base` and
`head`, `squashConfigs` returns as many documents as `head` has paths, and its
result does not change when an entry whose path is not in `head` is added to
`base` or removed from it. -/
theorem squashConfigs_base_only_paths (base head : configPathMap σ τ ρ)
    (hb : IsSnapshot base) (hh : IsSnapshot head) :
    (∃ out, squashConfigs base head = some out ∧ out.length = head.keys.length) ∧
      ∀ p, p ∉ head → ∀ d,
        squashConfigs (base.insert p d) head = squashConfigs base head ∧
        squashConfigs (base.erase p) head = squashConfigs base head := by
  constructor
  · refine ⟨head.entries.map (docFor base), squashConfigs_eq base head hb hh, ?_⟩
    simp [AList.keys, List.keys]
  · intro p hp d
    have hne : ∀ e ∈ head.entries, e.1 ≠ p := by
      intro e he hep
      apply hp
      rw [← hep]
      exact List.mem_keys_of_mem he
    constructor
    · exact foldlM_squashPath_congr base (base.insert p d) head.entries
        (fun e he => AList.lookup_insert_ne (hne e he)) []
    · exact foldlM_squashPath_congr base (base.erase p) head.entries
        (fun e he => AList.lookup_erase_ne (hne e he)) []

/-- Witness of C8 on the snapshots of `TestSquashConfigs`. -/
theorem squashConfigs_base_only_paths_witness :
    IsSnapshot testBaseSnapshot ∧ IsSnapshot testHeadSnapshot ∧
      ((∃ out, squashConfigs testBaseSnapshot testHeadSnapshot = some out ∧
          out.length = testHeadSnapshot.keys.length) ∧
        ∀ p, p ∉ testHeadSnapshot → ∀ d,
          squashConfigs (testBaseSnapshot.insert p d) testHeadSnapshot
              = squashConfigs testBaseSnapshot testHeadSnapshot ∧
            squashConfigs (testBaseSnapshot.erase p) testHeadSnapshot
              = squashConfigs testBaseSnapshot testHeadSnapshot) :=
  ⟨by decide, by decide,
    squashConfigs_base_only_paths testBaseSnapshot testHeadSnapshot (by decide) (by decide)⟩

/-- C9 (no re-trigger when nothing changed). For a snapshot `S` whose job names
are unique within each list, `squashConfigs S S` returns documents in which every
key maps to the empty job list; and `squashPresubmits L L` is empty for every list
`L` with unique names. -/
theorem squashConfigs_self_empty (S : configPathMap σ τ ρ) (hS : IsSnapshot S)
    (hu : ∀ e ∈ S.entries, ∀ c ∈ e.2, ∀ e2 ∈ c.PresubmitsStatic.entries, UniqueNames e2.2) :
    (∃ out, squashConfigs S S = some out ∧
        ∀ d ∈ out, ∃ c, d = some c ∧
          ∀ r jobs, c.PresubmitsStatic.lookup r = some jobs → jobs = []) ∧
      ∀ L : List (Presubmit σ τ), UniqueNames L → squashPresubmits L L = [] := by
  refine ⟨⟨S.entries.map (docFor S), squashConfigs_eq S S hS hS, ?_⟩, squashPresubmits_self⟩
  intro d hd
  obtain ⟨e, he, rfl⟩ := List.mem_map.1 hd
  obtain ⟨p, oc⟩ := e
  cases oc with
  | none => have := hS _ he; simp at this
  | some c =>
    have hl : S.lookup p = some (some c) := AList.mem_lookup_iff.2 he
    refine ⟨_, by unfold docFor; rw [hl], ?_⟩
    intro r jobs hj
    simp only at hj
    rw [lookup_squashPresubmitsStatic] at hj
    cases hr : c.PresubmitsStatic.lookup r with
    | none => rw [hr] at hj; simp at hj
    | some hp =>
      rw [hr] at hj
      simp only [Option.map_some', Option.some.injEq] at hj
      rw [← hj]
      unfold squashedFor
      rw [hr]
      apply squashPresubmits_self
      exact hu ⟨p, some c⟩ he c rfl ⟨r, hp⟩ (AList.mem_lookup_iff.1 (by rw [hr]; exact rfl))

/-- Witness of C9 on the head snapshot of `TestSquashConfigs`. -/
theorem squashConfigs_self_empty_witness :
    IsSnapshot testHeadSnapshot ∧
      (∀ e ∈ testHeadSnapshot.entries, ∀ c ∈ e.2, ∀ e2 ∈ c.PresubmitsStatic.entries,
        UniqueNames e2.2) ∧
      ((∃ out, squashConfigs testHeadSnapshot testHeadSnapshot = some out ∧
          ∀ d ∈ out, ∃ c, d = some c ∧
            ∀ r jobs, c.PresubmitsStatic.lookup r = some jobs → jobs = []) ∧
        ∀ L : List (Presubmit Nat Unit), UniqueNames L → squashPresubmits L L = []) :=
  ⟨by decide, by decide,
    squashConfigs_self_empty testHeadSnapshot (by decide) (by decide)⟩

end ClaimsConfig

section ClaimsFilter

variable {ε : Type}

/-- C10 (path filter). When `Match` raises no error on any input path,
`filterByPattern` succeeds and returns the matching input paths in input order,
that is, the input filtered by the match; in particular when no path matches, the
result is the empty list and no error. -/
theorem filterByPattern_eq_filter (Match : String → String → Except ε Bool)
    (input : List String) (pattern : String)
    (hok : ∀ s ∈ input, ∃ m, Match pattern s = Except.ok m) :
    filterByPattern Match input pattern = Except.ok (input.filter (isMatch Match pattern)) ∧
      ((∀ s ∈ input, Match pattern s = Except.ok false) →
        filterByPattern Match input pattern = Except.ok []) := by
  have h := foldlM_filterStep Match pattern input hok []
  rw [List.nil_append] at h
  refine ⟨h, ?_⟩
  intro hnone
  unfold filterByPattern
  rw [h]
  congr 1
  rw [List.filter_eq_nil_iff]
  intro s hs
  simp [isMatch, hnone s hs]

/-- Witness of C10 with the sample matcher: the literal pattern `a.yaml` on three
paths, two of which match. -/
theorem filterByPattern_eq_filter_witness :
    (∀ s ∈ ["a.yaml", "b.txt", "a.yaml"], ∃ m, sampleMatch "a.yaml" s = Except.ok m) ∧
      (filterByPattern sampleMatch ["a.yaml", "b.txt", "a.yaml"] "a.yaml"
          = Except.ok (["a.yaml", "b.txt", "a.yaml"].filter (isMatch sampleMatch "a.yaml")) ∧
        ((∀ s ∈ ["a.yaml", "b.txt", "a.yaml"], sampleMatch "a.yaml" s = Except.ok false) →
          filterByPattern sampleMatch ["a.yaml", "b.txt", "a.yaml"] "a.yaml" = Except.ok [])) :=
  ⟨fun s _ => ⟨decide ("a.yaml" = s), rfl⟩,
    filterByPattern_eq_filter sampleMatch ["a.yaml", "b.txt", "a.yaml"] "a.yaml"
      (fun s _ => ⟨decide ("a.yaml" = s), rfl⟩)⟩

end ClaimsFilter

section FilterErrorLemmas

variable {ε : Type}

theorem foldlM_filterStep_ok (Match : String → String → Except ε Bool) (pattern : String) :
    ∀ (input out r : List String),
      input.foldlM (filterStep Match pattern) out = Except.ok r →
        ∀ s ∈ input, ∃ m, Match pattern s = Except.ok m := by
  intro input
  induction input with
  | nil => intro _ _ _ s hs; simp at hs
  | cons a t ih =>
    intro out r hr s hs
    rw [List.foldlM_cons] at hr
    cases hm : Match pattern a with
    | error e =>
      have hstep : filterStep Match pattern out a = Except.error e := by
        simp [filterStep, hm]
      rw [hstep] at hr
      cases hr
    | ok m =>
      rcases List.mem_cons.1 hs with rfl | hst
      · exact ⟨m, hm⟩
      · cases hstep : filterStep Match pattern out a with
        | error e =>
          rw [hstep] at hr
          cases hr
        | ok out2 =>
          rw [hstep] at hr
          exact ih out2 r hr s hst

theorem foldlM_filterStep_error (Match : String → String → Except ε Bool) (pattern : String)
    (e : ε) (s : String) (t out : List String) (hs : Match pattern s = Except.error e) :
    (s :: t).foldlM (filterStep Match pattern) out = Except.error e := by
  rw [List.foldlM_cons]
  have hstep : filterStep Match pattern out s = Except.error e := by
    simp [filterStep, hs]
  rw [hstep]
  rfl

theorem foldlM_filterStep_first_error (Match : String → String → Except ε Bool)
    (pattern : String) (e : ε) (s : String) (post : List String)
    (hs : Match pattern s = Except.error e) :
    ∀ (pre : List String), (∀ x ∈ pre, ∃ m, Match pattern x = Except.ok m) →
      ∀ out : List String,
        (pre ++ s :: post).foldlM (filterStep Match pattern) out = Except.error e := by
  intro pre
  induction pre with
  | nil => intro _ out; exact foldlM_filterStep_error Match pattern e s post out hs
  | cons a t ih =>
    intro hpre out
    obtain ⟨m, hm⟩ := hpre a (List.mem_cons_self _ _)
    rw [List.cons_append, List.foldlM_cons]
    cases m with
    | true =>
      have hstep : filterStep Match pattern out a = Except.ok (out ++ [a]) := by
        simp [filterStep, hm]
      rw [hstep]
      exact ih (fun x hx => hpre x (List.mem_cons_of_mem _ hx)) (out ++ [a])
    | false =>
      have hstep : filterStep Match pattern out a = Except.ok out := by
        simp [filterStep, hm]
      rw [hstep]
      exact ih (fun x hx => hpre x (List.mem_cons_of_mem _ hx)) out

theorem foldlM_filterStep_some_error (Match : String → String → Except ε Bool)
    (pattern : String) :
    ∀ (input : List String), (∃ s ∈ input, ∃ e, Match pattern s = Except.error e) →
      ∀ out : List String,
        ∃ e, input.foldlM (filterStep Match pattern) out = Except.error e := by
  intro input
  induction input with
  | nil => rintro ⟨s, hs, _⟩; simp at hs
  | cons a t ih =>
    rintro ⟨s, hs, e, he⟩ out
    cases hm : Match pattern a with
    | error e2 => exact ⟨e2, foldlM_filterStep_error Match pattern e2 a t out hm⟩
    | ok m =>
      have hst : s ∈ t := by
        rcases List.mem_cons.1 hs with rfl | h
        · rw [hm] at he; cases he
        · exact h
      rw [List.foldlM_cons]
      cases m with
      | true =>
        have hstep : filterStep Match pattern out a = Except.ok (out ++ [a]) := by
          simp [filterStep, hm]
        rw [hstep]
        exact ih ⟨s, hst, e, he⟩ (out ++ [a])
      | false =>
        have hstep : filterStep Match pattern out a = Except.ok out := by
          simp [filterStep, hm]
        rw [hstep]
        exact ih ⟨s, hst, e, he⟩ out

theorem isMatch_eq_true (Match : String → String → Except ε Bool) (pattern s : String)
    (h : isMatch Match pattern s = true) : Match pattern s = Except.ok true := by
  unfold isMatch at h
  split at h
  · assumption
  · cases h

end FilterErrorLemmas

section ClaimsFilterMore

variable {ε : Type}

/-- C11, refuted as stated: for the sample matcher the pattern `[` is malformed (it
raises the bad-pattern error on every path), yet on the empty input
`filterByPattern` returns the empty result and no error. -/
theorem filterByPattern_empty_input_no_error :
    (∀ s, sampleMatch "[" s = Except.error PatternError.ErrBadPattern) ∧
      filterByPattern sampleMatch [] "[" = Except.ok [] :=
  ⟨fun _ => rfl, rfl⟩

/-- C11, amended: `filterByPattern` fails if and only if `Match` raises the
bad-pattern error on at least one input path; it then fails with the error of
the first such path, wherever that path stands in the input, and returns no
paths; on the empty input it returns the empty result and no error, whatever the
pattern. -/
theorem filterByPattern_bad_pattern (Match : String → String → Except ε Bool)
    (input : List String) (pattern : String) :
    ((∃ e, filterByPattern Match input pattern = Except.error e) ↔
        ∃ s ∈ input, ∃ e, Match pattern s = Except.error e) ∧
      (∀ (pre : List String) (s : String) (post : List String) (e : ε),
        input = pre ++ s :: post → (∀ x ∈ pre, ∃ m, Match pattern x = Except.ok m) →
          Match pattern s = Except.error e →
            filterByPattern Match input pattern = Except.error e) ∧
      filterByPattern Match [] pattern = Except.ok [] := by
  refine ⟨⟨?_, ?_⟩, ?_, rfl⟩
  · rintro ⟨e, he⟩
    by_contra hno
    have hok : ∀ s ∈ input, ∃ m, Match pattern s = Except.ok m := by
      intro s hs
      cases hm : Match pattern s with
      | error e2 => exact absurd ⟨s, hs, e2, hm⟩ hno
      | ok m => exact ⟨m, rfl⟩
    have h := foldlM_filterStep Match pattern input hok []
    unfold filterByPattern at he
    rw [h] at he
    cases he
  · intro hex
    exact foldlM_filterStep_some_error Match pattern input hex []
  · intro pre s post e hin hpre hs
    rw [hin]
    exact foldlM_filterStep_first_error Match pattern e s post hs pre hpre []

/-- Witness of the amended C11 with the sample matcher `lazyMatch` and the
malformed pattern `b*[`: the first path `a` is a plain mismatch, the second path
`b` raises the error, and the run fails with it; on the path `a` alone the same
pattern gives the empty result and no error. -/
theorem filterByPattern_bad_pattern_witness :
    (∀ x ∈ ["a"], ∃ m, lazyMatch "b*[" x = Except.ok m) ∧
      lazyMatch "b*[" "b" = Except.error PatternError.ErrBadPattern ∧
      filterByPattern lazyMatch ["a", "b", "c"] "b*["
        = Except.error PatternError.ErrBadPattern ∧
      filterByPattern lazyMatch ["a"] "b*[" = Except.ok [] :=
  ⟨fun x hx => ⟨false, by rw [List.mem_singleton.1 hx]; rfl⟩, rfl,
    (filterByPattern_bad_pattern lazyMatch ["a", "b", "c"] "b*[").2.1 ["a"] "b" ["c"]
      PatternError.ErrBadPattern rfl
      (fun x hx => ⟨false, by rw [List.mem_singleton.1 hx]; rfl⟩) rfl,
    rfl⟩

/-- C12 (idempotence of re-filtering). When `filterByPattern` succeeds on an input
with result `r`, it also succeeds on `r` with the same pattern and returns `r`. -/
theorem filterByPattern_idempotent (Match : String → String → Except ε Bool)
    (input : List String) (pattern : String) (r : List String)
    (h : filterByPattern Match input pattern = Except.ok r) :
    filterByPattern Match r pattern = Except.ok r := by
  have hok := foldlM_filterStep_ok Match pattern input [] r h
  have hr : r = input.filter (isMatch Match pattern) := by
    have h2 := foldlM_filterStep Match pattern input hok []
    rw [List.nil_append] at h2
    unfold filterByPattern at h
    rw [h2] at h
    cases h
    rfl
  have hall : ∀ s ∈ r, isMatch Match pattern s = true := by
    intro s hs
    rw [hr] at hs
    exact (List.mem_filter.1 hs).2
  have hok2 : ∀ s ∈ r, ∃ m, Match pattern s = Except.ok m :=
    fun s hs => ⟨true, isMatch_eq_true Match pattern s (hall s hs)⟩
  have h3 := foldlM_filterStep Match pattern r hok2 []
  rw [List.nil_append, List.filter_eq_self.2 hall] at h3
  exact h3

/-- Witness of C12 with the sample matcher: filtering the result `a.yaml, a.yaml`
again by the pattern `a.yaml` returns it unchanged. -/
theorem filterByPattern_idempotent_witness :
    filterByPattern sampleMatch ["a.yaml", "b.txt", "a.yaml"] "a.yaml"
        = Except.ok ["a.yaml", "a.yaml"] ∧
      filterByPattern sampleMatch ["a.yaml", "a.yaml"] "a.yaml"
        = Except.ok ["a.yaml", "a.yaml"] :=
  ⟨rfl,
    filterByPattern_idempotent sampleMatch ["a.yaml", "b.txt", "a.yaml"] "a.yaml"
      ["a.yaml", "a.yaml"] rfl⟩

end ClaimsFilterMore

section SpecFormLemmas

variable {σ τ : Type} [DecidableEq σ]

theorem emitFor_eq (base : List (Presubmit σ τ)) (h : Presubmit σ τ) :
    emitFor base h =
      if base.all (fun b => decide (b.Name ≠ h.Name)) then [h]
      else List.replicate
        (base.countP (fun b => decide (b.Name = h.Name ∧ b.Spec ≠ h.Spec))) h := by
  unfold emitFor
  have hpred : (fun b : Presubmit σ τ => decide (b.Name = h.Name ∧ h.Spec ≠ b.Spec)) =
      (fun b => decide (b.Name = h.Name ∧ b.Spec ≠ h.Spec)) := by
    funext b
    have : (h.Spec ≠ b.Spec) ↔ (b.Spec ≠ h.Spec) := ne_comm
    simp only [this]
  rw [hpred]
  by_cases hall : base.all (fun b => decide (b.Name ≠ h.Name)) = true
  · rw [if_pos hall, if_pos hall]
    have hnil : base.filter (fun b => decide (b.Name = h.Name ∧ b.Spec ≠ h.Spec)) = [] := by
      rw [List.filter_eq_nil_iff]
      intro b hb
      have := List.all_eq_true.1 hall b hb
      simp only [decide_eq_true_eq] at this
      simp [this]
    rw [hnil]
    rfl
  · rw [if_neg hall, if_neg hall, List.append_nil, List.countP_eq_length_filter]
    exact List.eq_replicate_iff.2 ⟨List.length_map _ _, fun x hx => by
      obtain ⟨_, _, rfl⟩ := List.mem_map.1 hx
      rfl⟩

theorem foldl_scanBase_congr (h : Presubmit σ τ) (base1 base2 : List (Presubmit σ τ))
    (hagree : List.Forall₂ (fun a b => a.Name = b.Name ∧ a.Spec = b.Spec) base1 base2) :
    ∀ st : List (Presubmit σ τ) × Bool,
      base1.foldl (scanBase h) st = base2.foldl (scanBase h) st := by
  induction hagree with
  | nil => intro st; rfl
  | cons hab _ ih =>
    intro st
    rw [List.foldl_cons, List.foldl_cons]
    have hstep : ∀ a b : Presubmit σ τ, a.Name = b.Name → a.Spec = b.Spec →
        scanBase h st a = scanBase h st b := by
      intro a b hn hs
      unfold scanBase
      rw [hn, hs]
    rw [hstep _ _ hab.1 hab.2]
    exact ih _

end SpecFormLemmas

section ClaimsSquashMore

variable {σ τ : Type} [DecidableEq σ]

/-- C16 (duplicate-name multiplicity), evaluated on the lists of
`TestSquashPresubmits`: the squash worded by the specification payload returns
the list the test asserts, `modify-something` then `new-job`, whereas
`squashPresubmits` returns `new-job` alone, so the two differ. -/
theorem squashPresubmits_test_differs_from_spec :
    squashPresubmitsSpec testOriginalPresubmits testNewPresubmits = testExpectedPresubmits ∧
      squashPresubmits testOriginalPresubmits testNewPresubmits = [testNewJob] ∧
      squashPresubmits testOriginalPresubmits testNewPresubmits
        ≠ squashPresubmitsSpec testOriginalPresubmits testNewPresubmits := by
  decide

/-- Multiplicity as the code decides it, by the `Spec` field alone and with no
uniqueness assumed: `squashPresubmits base head` is the concatenation, in head
order, over each head job `h` of one copy of `h` if no base job has the name of
`h`, and otherwise of one copy of `h` for each base job with the name of `h` and a
different `Spec`. -/
theorem squashPresubmits_eq_replicate (base head : List (Presubmit σ τ)) :
    squashPresubmits base head =
      head.flatMap (fun h =>
        if base.all (fun b => decide (b.Name ≠ h.Name)) then [h]
        else List.replicate
          (base.countP (fun b => decide (b.Name = h.Name ∧ b.Spec ≠ h.Spec))) h) := by
  rw [squashPresubmits_eq]
  congr 1
  funext h
  exact emitFor_eq base h

/-- C20 (the base side acts only through names and `Spec` values). Two base lists
of equal length that agree position by position on `Name` and `Spec` yield the
same `squashPresubmits` result against every head list, whatever their other
fields hold. -/
theorem squashPresubmits_base_frame (head base1 base2 : List (Presubmit σ τ))
    (hagree : List.Forall₂ (fun a b => a.Name = b.Name ∧ a.Spec = b.Spec) base1 base2) :
    squashPresubmits base1 head = squashPresubmits base2 head := by
  unfold squashPresubmits
  have hfun : scanHead base1 = scanHead base2 := by
    funext acc h
    unfold scanHead
    rw [foldl_scanBase_congr h base1 base2 hagree]
  rw [hfun]

/-- Witness of C20: two base lists that differ only in the `MaxConcurrency` of the
job `build`, against a head list in which `build` has a changed `Spec`. -/
theorem squashPresubmits_base_frame_witness :
    List.Forall₂ (fun a b => a.Name = b.Name ∧ a.Spec = b.Spec)
        [testDontTouch, exBuildBase] [testDontTouch, exBuildBaseBusy] ∧
      squashPresubmits [testDontTouch, exBuildBase] [testDontTouch, exBuildHead]
        = squashPresubmits [testDontTouch, exBuildBaseBusy] [testDontTouch, exBuildHead] :=
  ⟨List.Forall₂.cons ⟨rfl, rfl⟩ (List.Forall₂.cons ⟨rfl, rfl⟩ List.Forall₂.nil),
    squashPresubmits_base_frame [testDontTouch, exBuildHead] [testDontTouch, exBuildBase]
      [testDontTouch, exBuildBaseBusy]
      (List.Forall₂.cons ⟨rfl, rfl⟩ (List.Forall₂.cons ⟨rfl, rfl⟩ List.Forall₂.nil))⟩

end ClaimsSquashMore

section ClaimsConfigMore

variable {σ τ ρ : Type} [DecidableEq σ] [Inhabited ρ]

/-- Boundary of the snapshot condition: a nil document pointer stored at a path
that both mappings hold makes `squashConfigs` panic. -/
theorem squashConfigs_nil_document :
    squashConfigs (AList.insert "foo/path" none ∅) testBaseSnapshot = none ∧
      squashConfigs testBaseSnapshot (AList.insert "foo/path" none ∅) = none :=
  ⟨rfl, rfl⟩

/-- C18 (the delta engine cannot fail; a nil snapshot is an empty one). On
snapshots `squashConfigs` returns a result; against the empty base, which is how a
nil base reads, it returns exactly the head documents, each unchanged and in
visiting order; against the empty head, which is how a nil head ranges, it
returns the empty sequence. -/
theorem squashConfigs_total (base head : configPathMap σ τ ρ)
    (hb : IsSnapshot base) (hh : IsSnapshot head) :
    (∃ out, squashConfigs base head = some out) ∧
      squashConfigs ∅ head = some (head.entries.map (fun e => e.2)) ∧
      squashConfigs base ∅ = some [] := by
  refine ⟨⟨_, squashConfigs_eq base head hb hh⟩, ?_, rfl⟩
  have hempty : IsSnapshot (∅ : configPathMap σ τ ρ) := by
    intro e he
    cases he
  rw [squashConfigs_eq ∅ head hempty hh]
  rfl

/-- Witness of C18 on the snapshots laid out as in `TestSquashConfigs`. -/
theorem squashConfigs_total_witness :
    IsSnapshot testBaseSnapshot ∧ IsSnapshot testHeadSnapshot ∧
      ((∃ out, squashConfigs testBaseSnapshot testHeadSnapshot = some out) ∧
        squashConfigs ∅ testHeadSnapshot = some (testHeadSnapshot.entries.map (fun e => e.2)) ∧
        squashConfigs testBaseSnapshot ∅ = some []) :=
  ⟨by decide, by decide,
    squashConfigs_total testBaseSnapshot testHeadSnapshot (by decide) (by decide)⟩

/-- C19 (squashed documents carry only the job mapping). On snapshots, the
documents that `squashConfigs` returns correspond one to one, in visiting order,
to the paths of `head`; for a path present in both snapshots the document is a
fresh one whose `PresubmitsStatic` is `squashPresubmitsStatic` of the two
documents' mappings and whose every other field is the zero value, whatever the
head document held there. -/
theorem squashConfigs_squashed_doc (base head : configPathMap σ τ ρ)
    (hb : IsSnapshot base) (hh : IsSnapshot head) :
    ∃ out, squashConfigs base head = some out ∧
      List.Forall₂
        (fun e d => ∀ b h, base.lookup e.1 = some (some b) → e.2 = some h →
          d = some ⟨squashPresubmitsStatic b.PresubmitsStatic h.PresubmitsStatic, default⟩)
        head.entries out := by
  refine ⟨head.entries.map (docFor base), squashConfigs_eq base head hb hh, ?_⟩
  rw [List.forall₂_map_right_iff, List.forall₂_same]
  intro e _ b h hl he
  unfold docFor
  rw [hl, he]
  rfl

/-- Witness of C19 on the snapshots laid out as in `TestSquashConfigs`. -/
theorem squashConfigs_squashed_doc_witness :
    IsSnapshot testBaseSnapshot ∧ IsSnapshot testHeadSnapshot ∧
      ∃ out, squashConfigs testBaseSnapshot testHeadSnapshot = some out ∧
        List.Forall₂
          (fun e d => ∀ b h, testBaseSnapshot.lookup e.1 = some (some b) → e.2 = some h →
            d = some ⟨squashPresubmitsStatic b.PresubmitsStatic h.PresubmitsStatic, default⟩)
          testHeadSnapshot.entries out :=
  ⟨by decide, by decide,
    squashConfigs_squashed_doc testBaseSnapshot testHeadSnapshot (by decide) (by decide)⟩

end ClaimsConfigMore

section SplitLemmas

theorem splitSlash_ne_nil (cs : List Char) : splitSlash cs ≠ [] := by
  cases cs with
  | nil => simp [splitSlash]
  | cons c cs =>
    unfold splitSlash
    split
    · simp
    · split <;> simp

theorem splitSlash_cons_ne (c : Char) (cs : List Char) (hc : c ≠ '/') :
    splitSlash (c :: cs) =
      match splitSlash cs with
      | [] => [[c]]
      | p :: ps => (c :: p) :: ps := by
  rw [splitSlash, if_neg hc]

theorem splitSlash_cons_slash (cs : List Char) :
    splitSlash ('/' :: cs) = [] :: splitSlash cs := by
  rw [splitSlash, if_pos rfl]

theorem splitSlash_no_slash (cs : List Char) (h : '/' ∉ cs) : splitSlash cs = [cs] := by
  induction cs with
  | nil => rfl
  | cons c cs ih =>
    have hc : c ≠ '/' := fun e => h (by rw [e]; exact List.mem_cons_self _ _)
    have hcs : '/' ∉ cs := fun e => h (List.mem_cons_of_mem _ e)
    rw [splitSlash_cons_ne c cs hc, ih hcs]

theorem splitSlash_append_slash (org rest : List Char) (h : '/' ∉ org) :
    splitSlash (org ++ '/' :: rest) = org :: splitSlash rest := by
  induction org with
  | nil => exact splitSlash_cons_slash rest
  | cons c cs ih =>
    have hc : c ≠ '/' := fun e => h (by rw [e]; exact List.mem_cons_self _ _)
    have hcs : '/' ∉ cs := fun e => h (List.mem_cons_of_mem _ e)
    rw [List.cons_append, splitSlash_cons_ne c _ hc, ih hcs]

theorem length_splitSlash_of_mem (cs : List Char) (h : '/' ∈ cs) :
    2 ≤ (splitSlash cs).length := by
  induction cs with
  | nil => simp at h
  | cons c cs ih =>
    by_cases hc : c = '/'
    · subst hc
      rw [splitSlash_cons_slash]
      have := List.length_pos.2 (splitSlash_ne_nil cs)
      simp only [List.length_cons]
      omega
    · rw [splitSlash_cons_ne c cs hc]
      have hcs : '/' ∈ cs := by
        rcases List.mem_cons.1 h with e | e
        · exact absurd e.symm hc
        · exact e
      have := ih hcs
      cases hsp : splitSlash cs with
      | nil => rw [hsp] at this; simp at this
      | cons p ps => rw [hsp] at this; simpa using this

theorem splitOnSlash_of_isRepoIdentifier (repo : String) (h : IsRepoIdentifier repo) :
    ∃ org name rest, splitOnSlash repo = org :: name :: rest := by
  have hlen : 2 ≤ (splitOnSlash repo).length := by
    unfold splitOnSlash
    rw [List.length_map]
    exact length_splitSlash_of_mem repo.data h
  cases hs : splitOnSlash repo with
  | nil => rw [hs] at hlen; simp at hlen
  | cons org t =>
    cases t with
    | nil => rw [hs] at hlen; simp at hlen
    | cons name rest => exact ⟨org, name, rest, rfl⟩

theorem splitOnSlash_org_name (org name : String) (horg : '/' ∉ org.data)
    (hname : '/' ∉ name.data) : splitOnSlash (org ++ "/" ++ name) = [org, name] := by
  unfold splitOnSlash
  have hdata : (org ++ "/" ++ name).data = org.data ++ '/' :: name.data := by
    rw [String.data_append, String.data_append]
    simp
  rw [hdata, splitSlash_append_slash org.data name.data horg, splitSlash_no_slash name.data hname]
  rfl

end SplitLemmas

section RefLemmas

theorem scanWorkDir_eq_true_iff (refs : List Refs) :
    scanWorkDir refs = true ↔ ∀ r ∈ refs, r.WorkDir = false := by
  induction refs with
  | nil => simp [scanWorkDir]
  | cons r t ih =>
    unfold scanWorkDir
    cases hr : r.WorkDir with
    | true => simp [hr]
    | false => simp [hr, ih]

theorem scanWorkDir_eq_true_iff_count (refs : List Refs) :
    scanWorkDir refs = true ↔ primaryCount refs = 0 := by
  rw [scanWorkDir_eq_true_iff]
  unfold primaryCount
  rw [List.countP_eq_zero]
  constructor
  · intro h r hr; simp [h r hr]
  · intro h r hr
    have := h r hr
    simpa using this

theorem primaryCount_append_new (refs : List Refs) (org name link base : String) (depth : Int) :
    primaryCount (refs ++ [⟨org, name, link, base, scanWorkDir refs, depth⟩]) =
      max 1 (primaryCount refs) := by
  have happ : primaryCount (refs ++ [⟨org, name, link, base, scanWorkDir refs, depth⟩]) =
      primaryCount refs + (if scanWorkDir refs = true then 1 else 0) := by
    unfold primaryCount
    rw [List.countP_append]
    cases scanWorkDir refs <;> simp [List.countP_cons]
  rw [happ]
  by_cases h : scanWorkDir refs = true
  · have h0 := (scanWorkDir_eq_true_iff_count refs).1 h
    rw [if_pos h, h0]
    rfl
  · have h0 : primaryCount refs ≠ 0 := fun e => h ((scanWorkDir_eq_true_iff_count refs).2 e)
    rw [if_neg h]
    omega

theorem addRepoRef_eq {κ : Type} (prowJob : ProwJob κ) (repo : String)
    (h : IsRepoIdentifier repo) :
    addRepoRef prowJob repo =
      some { prowJob with
        ExtraRefs := prowJob.ExtraRefs ++
          [⟨(splitOnSlash repo).getD 0 "", (splitOnSlash repo).getD 1 "",
            "https://github.com/" ++ repo, "refs/heads/master",
            scanWorkDir prowJob.ExtraRefs, 50⟩] } := by
  obtain ⟨org, name, rest, hs⟩ := splitOnSlash_of_isRepoIdentifier repo h
  unfold addRepoRef
  rw [hs]
  rfl

end RefLemmas

section GenerateLemmas

variable {σ τ ρ π κ : Type}

theorem presubmitStep_eq
    (NewPresubmit : PullRequest π → String → Presubmit σ τ → String → ProwJob κ)
    (pre : PullRequestEvent π) (repo : String) (h : IsRepoIdentifier repo)
    (jobs : List (ProwJob κ)) (p : Presubmit σ τ) :
    presubmitStep NewPresubmit pre repo jobs p =
      some (jobs ++ [recordFor NewPresubmit pre (repo, p)]) := by
  unfold presubmitStep
  rw [addRepoRef_eq _ repo h]
  rfl

theorem foldlM_presubmitStep
    (NewPresubmit : PullRequest π → String → Presubmit σ τ → String → ProwJob κ)
    (pre : PullRequestEvent π) (repo : String) (h : IsRepoIdentifier repo) :
    ∀ (l : List (Presubmit σ τ)) (jobs : List (ProwJob κ)),
      l.foldlM (presubmitStep NewPresubmit pre repo) jobs =
        some (jobs ++ (l.map (fun p => (repo, p))).map (recordFor NewPresubmit pre)) := by
  intro l
  induction l with
  | nil => intro jobs; simp
  | cons p t ih =>
    intro jobs
    rw [List.foldlM_cons, presubmitStep_eq NewPresubmit pre repo h]
    simp only [Option.bind_eq_bind, Option.some_bind]
    rw [ih]
    simp

theorem foldlM_repoStep
    (NewPresubmit : PullRequest π → String → Presubmit σ τ → String → ProwJob κ)
    (pre : PullRequestEvent π) :
    ∀ (l : List (Sigma (fun _ : String => List (Presubmit σ τ)))),
      (∀ e ∈ l, IsRepoIdentifier e.1) →
      ∀ jobs : List (ProwJob κ),
        l.foldlM (repoStep NewPresubmit pre) jobs =
          some (jobs ++
            (l.flatMap (fun e => e.2.map (fun p => (e.1, p)))).map
              (recordFor NewPresubmit pre)) := by
  intro l
  induction l with
  | nil => intro _ jobs; simp
  | cons e t ih =>
    intro h jobs
    have hstep : repoStep NewPresubmit pre jobs e =
        some (jobs ++ (e.2.map (fun p => (e.1, p))).map (recordFor NewPresubmit pre)) :=
      foldlM_presubmitStep NewPresubmit pre e.1 (h e (List.mem_cons_self _ _)) e.2 jobs
    rw [List.foldlM_cons, hstep]
    simp only [Option.bind_eq_bind, Option.some_bind]
    rw [ih (fun x hx => h x (List.mem_cons_of_mem _ hx))]
    simp

theorem generatePresubmits_eq
    (NewPresubmit : PullRequest π → String → Presubmit σ τ → String → ProwJob κ)
    (c : Config σ τ ρ) (pre : PullRequestEvent π)
    (h : ∀ e ∈ c.PresubmitsStatic.entries, IsRepoIdentifier e.1) :
    generatePresubmits NewPresubmit (some c) pre =
      some ((jobPairs c).map (recordFor NewPresubmit pre)) := by
  unfold generatePresubmits jobPairs
  simp only
  rw [foldlM_repoStep NewPresubmit pre c.PresubmitsStatic.entries h []]
  simp

theorem foldlM_confStep
    (NewPresubmit : PullRequest π → String → Presubmit σ τ → String → ProwJob κ)
    (pre : PullRequestEvent π) :
    ∀ (configs : List (Option (Config σ τ ρ))),
      (∀ oc ∈ configs, oc.isSome = true) →
      (∀ oc ∈ configs, ∀ c ∈ oc, ∀ e ∈ c.PresubmitsStatic.entries, IsRepoIdentifier e.1) →
      ∀ jobs : List (ProwJob κ),
        configs.foldlM (confStep NewPresubmit pre) jobs =
          some (jobs ++ (allJobPairs configs).map (recordFor NewPresubmit pre)) := by
  intro configs
  induction configs with
  | nil => intro _ _ jobs; simp [allJobPairs]
  | cons oc t ih =>
    intro hdocs hkeys jobs
    cases oc with
    | none =>
      have := hdocs none (List.mem_cons_self _ _)
      simp at this
    | some c =>
      have hstep : confStep NewPresubmit pre jobs (some c) =
          some (jobs ++ (jobPairs c).map (recordFor NewPresubmit pre)) := by
        unfold confStep
        rw [generatePresubmits_eq NewPresubmit c pre
          (hkeys (some c) (List.mem_cons_self _ _) c rfl)]
      rw [List.foldlM_cons, hstep]
      simp only [Option.bind_eq_bind, Option.some_bind]
      rw [ih (fun x hx => hdocs x (List.mem_cons_of_mem _ hx))
        (fun x hx => hkeys x (List.mem_cons_of_mem _ hx))]
      simp [allJobPairs]

theorem generateProwJobs_eq
    (NewPresubmit : PullRequest π → String → Presubmit σ τ → String → ProwJob κ)
    (configs : List (Option (Config σ τ ρ))) (pre : PullRequestEvent π)
    (hdocs : ∀ oc ∈ configs, oc.isSome = true)
    (hkeys : ∀ oc ∈ configs, ∀ c ∈ oc, ∀ e ∈ c.PresubmitsStatic.entries,
      IsRepoIdentifier e.1) :
    generateProwJobs NewPresubmit configs pre =
      some ((allJobPairs configs).map (recordFor NewPresubmit pre)) := by
  unfold generateProwJobs
  rw [foldlM_confStep NewPresubmit pre configs hdocs hkeys []]
  simp

theorem length_allJobPairs (configs : List (Option (Config σ τ ρ))) :
    (allJobPairs configs).length = totalJobs configs := by
  unfold allJobPairs totalJobs
  rw [List.length_flatMap]
  congr 1
  apply List.map_congr_left
  intro oc _
  cases oc with
  | none => rfl
  | some c =>
    simp only [Function.comp, jobPairs]
    rw [List.length_flatMap]
    congr 1
    apply List.map_congr_left
    intro e _
    simp

theorem mem_allJobPairs (configs : List (Option (Config σ τ ρ))) (rp : String × Presubmit σ τ)
    (h : rp ∈ allJobPairs configs) :
    ∃ c, some c ∈ configs ∧ ∃ e ∈ c.PresubmitsStatic.entries, e.1 = rp.1 ∧ rp.2 ∈ e.2 := by
  unfold allJobPairs at h
  obtain ⟨oc, hoc, hrp⟩ := List.mem_flatMap.1 h
  cases oc with
  | none => simp at hrp
  | some c =>
    simp only [jobPairs] at hrp
    obtain ⟨e, he, hp⟩ := List.mem_flatMap.1 hrp
    obtain ⟨p, hp1, rfl⟩ := List.mem_map.1 hp
    exact ⟨c, hoc, e, he, rfl, hp1⟩

end GenerateLemmas

section ClaimsGenerate

variable {σ τ ρ π κ : Type}

/-- C13, refuted as stated: with a `NewPresubmit` that copies the extra references
of the job configuration into the record, the document `exDocument` yields two
records, and the one built from the job that lists two primary references has
two references with `WorkDir` set after `addRepoRef`, not exactly one. -/
theorem generatePresubmits_two_primary :
    ∃ jobs, generatePresubmits sampleNewPresubmit (some exDocument) exEvent = some jobs ∧
      jobs.map (fun pj => primaryCount pj.ExtraRefs) = [1, 2] :=
  ⟨_, rfl, by decide⟩

/-- C13, amended: for documents whose keys carry the `org/name` separator, every
record that `generatePresubmits`, and hence `generateProwJobs`, produces has as
many references with `WorkDir` set as the larger of one and the number that the
record of `NewPresubmit` carried; so it has at least one, and exactly one if and
only if the record carried at most one before `addRepoRef` was applied. -/
theorem generatePresubmits_primary_count
    (NewPresubmit : PullRequest π → String → Presubmit σ τ → String → ProwJob κ)
    (configs : List (Option (Config σ τ ρ))) (pre : PullRequestEvent π)
    (hdocs : ∀ oc ∈ configs, oc.isSome = true)
    (hkeys : ∀ oc ∈ configs, ∀ c ∈ oc, ∀ e ∈ c.PresubmitsStatic.entries,
      IsRepoIdentifier e.1) :
    (∀ c, some c ∈ configs →
      ∃ jobs, generatePresubmits NewPresubmit (some c) pre = some jobs ∧
        List.Forall₂
          (fun rp pj =>
            primaryCount pj.ExtraRefs =
                max 1 (primaryCount
                  (NewPresubmit pre.PullRequest pre.PullRequest.BaseSHA rp.2 pre.GUID).ExtraRefs) ∧
              (primaryCount pj.ExtraRefs = 1 ↔
                primaryCount
                  (NewPresubmit pre.PullRequest pre.PullRequest.BaseSHA rp.2 pre.GUID).ExtraRefs
                    ≤ 1))
          (jobPairs c) jobs) ∧
      ∃ jobs, generateProwJobs NewPresubmit configs pre = some jobs ∧
        ∀ pj ∈ jobs, 1 ≤ primaryCount pj.ExtraRefs := by
  have hrec : ∀ rp : String × Presubmit σ τ,
      primaryCount (recordFor NewPresubmit pre rp).ExtraRefs =
        max 1 (primaryCount
          (NewPresubmit pre.PullRequest pre.PullRequest.BaseSHA rp.2 pre.GUID).ExtraRefs) := by
    intro rp
    unfold recordFor
    exact primaryCount_append_new _ _ _ _ _ _
  constructor
  · intro c hc
    refine ⟨_, generatePresubmits_eq NewPresubmit c pre (hkeys (some c) hc c rfl), ?_⟩
    rw [List.forall₂_map_right_iff, List.forall₂_same]
    intro rp _
    refine ⟨hrec rp, ?_⟩
    rw [hrec rp]
    omega
  · refine ⟨_, generateProwJobs_eq NewPresubmit configs pre hdocs hkeys, ?_⟩
    intro pj hpj
    obtain ⟨rp, _, rfl⟩ := List.mem_map.1 hpj
    rw [hrec rp]
    omega

/-- Witness of the amended C13 on the one-document sequence `exDocument`. -/
theorem generatePresubmits_primary_count_witness :
    (∀ oc ∈ [some exDocument], oc.isSome = true) ∧
      (∀ oc ∈ [some exDocument], ∀ c ∈ oc, ∀ e ∈ c.PresubmitsStatic.entries,
        IsRepoIdentifier e.1) ∧
      ∃ jobs, generateProwJobs sampleNewPresubmit [some exDocument] exEvent = some jobs ∧
        ∀ pj ∈ jobs, 1 ≤ primaryCount pj.ExtraRefs :=
  ⟨by decide, by decide,
    (generatePresubmits_primary_count sampleNewPresubmit [some exDocument] exEvent
      (by decide) (by decide)).2⟩

/-- C14 (event allow-list). `shouldPerformOnEvent` returns true if and only if the
action is exactly `opened`, `edited` or `synchronize`; it returns false for
`closed`; and `HandlePullRequestEvent` runs what follows its guard exactly for the
three allowed actions, returning at the guard for every other action. -/
theorem shouldPerformOnEvent_iff (event : PullRequestEvent π) :
    (shouldPerformOnEvent event = true ↔
        event.Action = "opened" ∨ event.Action = "edited" ∨ event.Action = "synchronize") ∧
      (event.Action = "closed" → shouldPerformOnEvent event = false) ∧
      ∀ (α : Type) (nothingToDo : α) (pipeline : PullRequestEvent π → α),
        HandlePullRequestEvent event nothingToDo pipeline =
          if event.Action = "opened" ∨ event.Action = "edited" ∨ event.Action = "synchronize"
          then pipeline event else nothingToDo := by
  have hiff : shouldPerformOnEvent event = true ↔
      event.Action = "opened" ∨ event.Action = "edited" ∨ event.Action = "synchronize" := by
    unfold shouldPerformOnEvent
    split <;> simp_all
  refine ⟨hiff, ?_, ?_⟩
  · intro hc
    cases hs : shouldPerformOnEvent event with
    | false => rfl
    | true =>
      have := hiff.1 hs
      rw [hc] at this
      revert this
      decide
  · intro α nothingToDo pipeline
    unfold HandlePullRequestEvent
    by_cases hs : shouldPerformOnEvent event = true
    · rw [if_pos (hiff.1 hs)]
      simp [hs]
    · rw [if_neg (fun h => hs (hiff.2 h))]
      simp [hs]

/-- C15 (one record per job definition). For a sequence of documents whose keys
carry the `org/name` separator, `generateProwJobs` returns as many records as
there are job definitions over all keys of all documents, and the records
correspond one to one, in order, to the `(RepoIdentifier, JobDefinition)` pairs,
each being `addRepoRef` applied to the record `NewPresubmit` builds for its pair. -/
theorem generateProwJobs_one_per_job
    (NewPresubmit : PullRequest π → String → Presubmit σ τ → String → ProwJob κ)
    (configs : List (Option (Config σ τ ρ))) (pre : PullRequestEvent π)
    (hdocs : ∀ oc ∈ configs, oc.isSome = true)
    (hkeys : ∀ oc ∈ configs, ∀ c ∈ oc, ∀ e ∈ c.PresubmitsStatic.entries,
      IsRepoIdentifier e.1) :
    ∃ jobs, generateProwJobs NewPresubmit configs pre = some jobs ∧
      jobs.length = totalJobs configs ∧
      List.Forall₂
        (fun rp pj =>
          addRepoRef (NewPresubmit pre.PullRequest pre.PullRequest.BaseSHA rp.2 pre.GUID) rp.1
            = some pj)
        (allJobPairs configs) jobs := by
  refine ⟨_, generateProwJobs_eq NewPresubmit configs pre hdocs hkeys, ?_, ?_⟩
  · rw [List.length_map, length_allJobPairs]
  · rw [List.forall₂_map_right_iff, List.forall₂_same]
    intro rp hrp
    obtain ⟨c, hc, e, he, hk, _⟩ := mem_allJobPairs configs rp hrp
    have hrepo : IsRepoIdentifier rp.1 := hk ▸ hkeys (some c) hc c rfl e he
    rw [addRepoRef_eq _ rp.1 hrepo]
    rfl

/-- Witness of C15 on the one-document sequence `exDocument`, which holds two job
definitions. -/
theorem generateProwJobs_one_per_job_witness :
    (∀ oc ∈ [some exDocument], oc.isSome = true) ∧
      (∀ oc ∈ [some exDocument], ∀ c ∈ oc, ∀ e ∈ c.PresubmitsStatic.entries,
        IsRepoIdentifier e.1) ∧
      ∃ jobs, generateProwJobs sampleNewPresubmit [some exDocument] exEvent = some jobs ∧
        jobs.length = totalJobs [some exDocument] ∧
        List.Forall₂
          (fun rp pj =>
            addRepoRef
                (sampleNewPresubmit exEvent.PullRequest exEvent.PullRequest.BaseSHA rp.2
                  exEvent.GUID) rp.1
              = some pj)
          (allJobPairs [some exDocument]) jobs :=
  ⟨by decide, by decide,
    generateProwJobs_one_per_job sampleNewPresubmit [some exDocument] exEvent
      (by decide) (by decide)⟩

/-- C17 (`addRepoRef` only appends). For a record and a RepoIdentifier `org/name`
whose two parts hold no slash, `addRepoRef` leaves the rest of the record and
every existing reference unchanged and appends exactly one reference, whose org
and repo are the two parts, whose clone depth is 50, whose base ref is
`refs/heads/master`, and whose `WorkDir` is true if and only if no existing
reference had `WorkDir` set. -/
theorem addRepoRef_appends (prowJob : ProwJob κ) (org name : String)
    (horg : '/' ∉ org.data) (hname : '/' ∉ name.data) :
    ∃ pj ref, addRepoRef prowJob (org ++ "/" ++ name) = some pj ∧
      pj.Name = prowJob.Name ∧ pj.Other = prowJob.Other ∧
      pj.ExtraRefs = prowJob.ExtraRefs ++ [ref] ∧
      ref.Org = org ∧ ref.Repo = name ∧ ref.CloneDepth = 50 ∧
      ref.BaseRef = "refs/heads/master" ∧
      ref.RepoLink = "https://github.com/" ++ (org ++ "/" ++ name) ∧
      (ref.WorkDir = true ↔ ∀ r ∈ prowJob.ExtraRefs, r.WorkDir = false) := by
  have hs := splitOnSlash_org_name org name horg hname
  refine ⟨⟨prowJob.Name, prowJob.ExtraRefs ++
      [⟨org, name, "https://github.com/" ++ (org ++ "/" ++ name), "refs/heads/master",
        scanWorkDir prowJob.ExtraRefs, 50⟩], prowJob.Other⟩,
    ⟨org, name, "https://github.com/" ++ (org ++ "/" ++ name), "refs/heads/master",
      scanWorkDir prowJob.ExtraRefs, 50⟩, ?_, rfl, rfl, rfl, rfl, rfl, rfl, rfl, rfl,
    scanWorkDir_eq_true_iff prowJob.ExtraRefs⟩
  unfold addRepoRef
  rw [hs]

/-- Witness of C17: the RepoIdentifier `foo/bar` added to a record that already
carries one primary reference. -/
theorem addRepoRef_appends_witness :
    '/' ∉ "foo".data ∧ '/' ∉ "bar".data ∧
      ∃ pj ref, addRepoRef (⟨"job", [exToolsRef], ()⟩ : ProwJob Unit) ("foo" ++ "/" ++ "bar")
          = some pj ∧
        pj.Name = "job" ∧ pj.Other = () ∧
        pj.ExtraRefs = [exToolsRef] ++ [ref] ∧
        ref.Org = "foo" ∧ ref.Repo = "bar" ∧ ref.CloneDepth = 50 ∧
        ref.BaseRef = "refs/heads/master" ∧
        ref.RepoLink = "https://github.com/" ++ ("foo" ++ "/" ++ "bar") ∧
        (ref.WorkDir = true ↔ ∀ r ∈ [exToolsRef], r.WorkDir = false) :=
  ⟨by decide, by decide,
    addRepoRef_appends (⟨"job", [exToolsRef], ()⟩ : ProwJob Unit) "foo" "bar"
      (by decide) (by decide)⟩

end ClaimsGenerate

end Handler
